import Mathlib

/-!
Verification of the template compilation and model resolution core of the
go-i18ngen localization code generator.

Strings are modelled as lists of characters (`Str`).  Go maps that the code
iterates over are modelled as association lists, whose list order stands for
one possible iteration order of the backing map; Go maps that are only looked
up are also association lists, queried with first-match lookup.  Go byte-wise
operations on UTF-8 strings are modelled character-wise, which coincides with
the Go behaviour on the inputs of interest (Go compares strings byte-wise and
UTF-8 byte order agrees with code-point order).
-/

namespace I18ngen

/-- Strings as lists of characters. -/
abbrev Str := List Char

/-- Whitespace set of Go `unicode.IsSpace` restricted to Latin-1, as used by
`strings.TrimSpace`: space, tab, newline, vertical tab, form feed, carriage
return, next line, and no-break space. -/
def isGoSpace (c : Char) : Bool :=
  c == ' ' || c == '\t' || c == '\n' || c == '\x0b' || c == '\x0c' || c == '\r' ||
  c == '\x85' || c == '\xa0'

/-- Embedding of Go `strings.TrimSpace`: drop whitespace from both ends. -/
def trimSpace (s : Str) : Str :=
  ((s.dropWhile isGoSpace).reverse.dropWhile isGoSpace).reverse

/-- Embedding of Go `strings.Index`: index of the first occurrence of `pat`
in the string, or `none` when there is no occurrence. -/
def subIndex (pat : Str) : Str → Option Nat
  | [] => if pat.isPrefixOf ([] : Str) then some 0 else none
  | c :: rest =>
    if pat.isPrefixOf (c :: rest) then some 0 else (subIndex pat rest).map (· + 1)

/-- Embedding of Go `strings.Contains`. -/
def containsSub (pat s : Str) : Bool :=
  (subIndex pat s).isSome

/-- The two-character opening delimiter of a template expression. -/
def openBraces : Str := ['{', '{']

/-- The two-character closing delimiter of a template expression. -/
def closeBraces : Str := ['}', '}']

/-- Embedding of Go `strings.Count(tmpl, "\x7b\x7b")`: the number of
non-overlapping occurrences of the opening delimiter, counted left to right. -/
def countOpenBraces : Str → Nat
  | '{' :: '{' :: rest => countOpenBraces rest + 1
  | _ :: rest => countOpenBraces rest
  | [] => 0

/-- Source scan of `validateTemplateComplexity`: running brace depth, where
an opening brace increments the depth, a closing brace decrements it, and the
maximum is recorded after each increment.  `cur` and `maxd` are the loop
accumulators, both starting at `0`. -/
def braceDepthScan : Str → Int → Int → Int
  | [], _, maxd => maxd
  | c :: rest, cur, maxd =>
    if c = '{' then braceDepthScan rest (cur + 1) (max maxd (cur + 1))
    else if c = '}' then braceDepthScan rest (cur - 1) maxd
    else braceDepthScan rest cur maxd

/-- Embedding of `validateTemplateComplexity` (parser/messages.go).  The
result is `true` when the template passes: nesting depth at most `5` and at
most `20` opening delimiters.  (The trailing `validateNoCircularPatterns`
call of the source always returns `nil`, so it is omitted.) -/
def validateTemplateComplexity (tmpl : Str) : Bool :=
  !(5 < braceDepthScan tmpl 0 0) && !(20 < countOpenBraces tmpl)

/-- Field reference with optional suffix (model.FieldInfo). -/
structure FieldInfo where
  Name : Str
  Suffix : Str
deriving DecidableEq

/-- Parsing of one already-trimmed delimited expression, as done inside the
loop of `extractFieldInfos`: the expression counts only when it starts with a
dot; the part from the first pipe onward is cut off; an optional `:suffix`
follows the base name; name and suffix are whitespace-trimmed; an empty name
yields no field. -/
def parseFieldExpr (expr : Str) : Option FieldInfo :=
  match expr with
  | '.' :: fieldExpression =>
    let fieldPart := trimSpace (fieldExpression.takeWhile (· != '|'))
    let fieldName :=
      if fieldPart.contains ':' then trimSpace (fieldPart.takeWhile (· != ':'))
      else fieldPart
    let suffix :=
      if fieldPart.contains ':' then trimSpace ((fieldPart.dropWhile (· != ':')).drop 1)
      else []
    if fieldName = [] then none else some ⟨fieldName, suffix⟩
  | _ => none

/-- Fuelled loop of `extractFieldInfos` (parser/messages.go).  Each round
finds the leftmost opening delimiter, then the leftmost closing delimiter
after it (stopping silently when either is missing), parses the trimmed
expression between them, and continues after the closing delimiter.  The fuel
only serves termination; `tmpl.length` rounds are always enough because every
round consumes at least two characters. -/
def extractFieldInfosAux : Nat → Str → List FieldInfo
  | 0, _ => []
  | fuel + 1, s =>
    match subIndex openBraces s with
    | none => []
    | some start =>
      match subIndex closeBraces (s.drop start) with
      | none => []
      | some stop =>
        let expr := trimSpace ((s.drop (start + 2)).take (stop - 2))
        (parseFieldExpr expr).toList ++ extractFieldInfosAux fuel (s.drop (start + stop + 2))

/-- Embedding of `extractFieldInfos` (parser/messages.go). -/
def extractFieldInfos (tmpl : Str) : List FieldInfo :=
  extractFieldInfosAux tmpl.length tmpl

/-- The unsuffixed base names among the extracted field references of a
template, in encounter order (the multiset counted by `fieldCounts` in
`validateNoDuplicatePlaceholders`). -/
def unsuffixedNames (tmpl : Str) : List Str :=
  (extractFieldInfos tmpl).filterMap (fun f => if f.Suffix = [] then some f.Name else none)

/-- The base names reported as duplicates by
`validateNoDuplicatePlaceholders`: unsuffixed names occurring at least twice.
The source iterates over a Go map of counts, so which of these names is put
into the error message is arbitrary; the error always names a member of this
list. -/
def duplicatedNames (tmpl : Str) : List Str :=
  ((unsuffixedNames tmpl).filter (fun n => 2 ≤ (unsuffixedNames tmpl).count n)).dedup

/-- Embedding of `validateNoDuplicatePlaceholders` (parser/messages.go):
`true` when no unsuffixed base name repeats. -/
def validateNoDuplicatePlaceholders (tmpl : Str) : Bool :=
  (duplicatedNames tmpl).isEmpty

/-- ASCII uppercase map, modelling Go `strings.ToUpper` on the inputs of
interest (identifier segments). -/
def goToUpper (c : Char) : Char :=
  if 'a' ≤ c && c ≤ 'z' then Char.ofNat (c.toNat - 32) else c

/-- ASCII lowercase map, modelling Go `strings.ToLower` on the inputs of
interest (configured placeholder names). -/
def goToLower (c : Char) : Char :=
  if 'A' ≤ c && c ≤ 'Z' then Char.ofNat (c.toNat + 32) else c

/-- Lowercasing of a whole string. -/
def lowerStr (s : Str) : Str := s.map goToLower

/-- Embedding of Go `strings.EqualFold` on ASCII strings: equality up to
case. -/
def eqFold (a b : Str) : Bool := lowerStr a == lowerStr b

/-- Uppercase the first character of a segment, as the loop body of
`ToCamelCase` does for every non-empty underscore-separated part. -/
def upperFirst (part : Str) : Str :=
  match part with
  | [] => []
  | c :: rest => goToUpper c :: rest

/-- Embedding of `utils.ToCamelCase`: split on underscores, uppercase the
first character of every non-empty segment, and join the segments. -/
def toCamelCase (s : Str) : Str :=
  ((s.splitOn '_').map upperFirst).flatten

/-- Embedding of `FieldInfo.GenerateFieldName` (model/model.go). -/
def FieldInfo.generateFieldName (f : FieldInfo) : Str :=
  if f.Suffix ≠ [] then toCamelCase f.Name ++ toCamelCase f.Suffix
  else toCamelCase f.Name

/-- Embedding of `FieldInfo.GenerateTemplateKey` (model/model.go). -/
def FieldInfo.generateTemplateKey (f : FieldInfo) : Str :=
  if f.Suffix ≠ [] then f.Name ++ toCamelCase f.Suffix
  else f.Name

/-- Embedding of `generateStructName` (model/model.go): a message ID starting
with a digit receives the literal prefix `Msg`. -/
def generateStructName (id : Str) : Str :=
  match id with
  | c :: _ =>
    if c.isDigit then "Msg".data ++ toCamelCase id else toCamelCase id
  | [] => toCamelCase []

/-- Configuration fields relevant to the core: the emitter backend name and
the configured plural placeholder names (config package; the `Backend` field
appears in the command flags of the source). -/
structure Config where
  backend : Str
  pluralPlaceholders : List Str

/-- Embedding of `config.getDefaultPluralPlaceholders`. -/
def defaultPluralPlaceholders : List Str := ["Count".data]

/-- Embedding of `Config.GetPluralPlaceholders`: each configured name (the
default list when none are configured) together with its lowercase form when
that differs. -/
def Config.getPluralPlaceholders (c : Config) : List Str :=
  let base := if c.pluralPlaceholders.isEmpty then defaultPluralPlaceholders
              else c.pluralPlaceholders
  (base.map (fun p => p :: (if lowerStr p ≠ p then [lowerStr p] else []))).flatten

/-- Embedding of `Config.IsPluralPlaceholder`: case-insensitive comparison
against the configured plural placeholder names. -/
def Config.isPluralPlaceholder (c : Config) (name : Str) : Bool :=
  c.getPluralPlaceholders.any (fun p => eqFold p name)

/-- Whitespace class of the RE2 escape used in the plural-placeholder
pattern of `messageSupportsCount`. -/
def isRegexSpace (c : Char) : Bool :=
  c == ' ' || c == '\t' || c == '\n' || c == '\x0c' || c == '\r'

/-- Match of the anchored RE2 pattern
`\x7b\x7b\s*\.\s*placeholder\s*\x7d\x7d` at the start of `s`, for a
placeholder name that neither starts nor ends with pattern whitespace (true
of identifier-like configured names), where greedy whitespace skipping is
exact. -/
def matchPluralAt (p : Str) (s : Str) : Bool :=
  if openBraces.isPrefixOf s then
    match (s.drop 2).dropWhile isRegexSpace with
    | '.' :: s2 =>
      let s3 := s2.dropWhile isRegexSpace
      if p.isPrefixOf s3 then
        closeBraces.isPrefixOf ((s3.drop p.length).dropWhile isRegexSpace)
      else false
    | _ => false
  else false

/-- Embedding of `regexp.MatchString` for the plural-placeholder pattern:
an unanchored match anywhere in the template. -/
def matchesPluralPattern (p : Str) (s : Str) : Bool :=
  s.tails.any (matchPluralAt p)

/-- The five plural-category markers that `messageSupportsCount` looks for
as raw substrings of a flattened template. -/
def pluralKeyMarkers : List Str :=
  ["one:".data, "other:".data, "few:".data, "many:".data, "zero:".data]

/-- Substring test against the plural-category markers. -/
def containsPluralMarker (t : Str) : Bool :=
  pluralKeyMarkers.any (fun m => containsSub m t)

/-- Embedding of `messageSupportsCount` (model/model.go): only the go-i18n
backend supports pluralization; then some locale's flattened template must
match the plural-placeholder pattern for a configured name (or its lowercase
form), or contain one of the plural-category markers. -/
def messageSupportsCount (templates : List (Str × Str)) (cfg : Config) : Bool :=
  if cfg.backend == "go-i18n".data then
    templates.any (fun lt =>
      cfg.getPluralPlaceholders.any (fun p => matchesPluralPattern p lt.2) ||
      containsPluralMarker lt.2)
  else false

/-- Raw decoded template value (Go `interface\x7b\x7d` shapes): a plain
string, a category map with string keys, or any other decoded value carried
by its `fmt.Sprintf` rendering. -/
inductive RawVal where
  | vstr : Str → RawVal
  | vmap : List (Str × RawVal) → RawVal
  | vother : Str → RawVal

/-- Lookup in a decoded Go map, modelled as first-match lookup in the
association list. -/
def lookupRaw (m : List (Str × RawVal)) (k : Str) : Option RawVal :=
  (m.find? (fun e => e.1 == k)).map (·.2)

/-- First entry of the map carrying a string value, standing for the first
string value delivered by one iteration order of the Go map. -/
def firstStringValue : List (Str × RawVal) → Option Str
  | [] => none
  | (_, RawVal.vstr s) :: _ => some s
  | _ :: rest => firstStringValue rest

/-- Embedding of `convertPluralToTemplate` (parser/messages.go): prefer the
`other` entry when it is a string, then the `one` entry, then any available
string value, and finally a fixed fallback template. -/
def convertPluralToTemplate (m : List (Str × RawVal)) : Str :=
  match lookupRaw m "other".data with
  | some (RawVal.vstr s) => s
  | _ =>
    match lookupRaw m "one".data with
    | some (RawVal.vstr s) => s
    | _ =>
      match firstStringValue m with
      | some s => s
      | none => "\x7b\x7b.Count\x7d\x7d items".data

/-- Per-value flattening performed by `convertMixedToStringMap`
(parser/messages.go): strings pass through, category maps are flattened by
`convertPluralToTemplate`, any other decoded value falls back to its
`fmt.Sprintf` rendering. -/
def flattenRawValue : RawVal → Str
  | RawVal.vstr s => s
  | RawVal.vmap m => convertPluralToTemplate m
  | RawVal.vother r => r

/-- Per-message source record (model.MessageSource). -/
structure MessageSource where
  ID : Str
  Templates : List (Str × Str)
  RawTemplates : List (Str × RawVal)
  FieldInfos : List FieldInfo

/-- Validation run by `ParseMessages` over every locale of one message
entry. -/
def validateLocaleTemplates (lts : List (Str × Str)) : Bool :=
  lts.all (fun lt =>
    validateNoDuplicatePlaceholders lt.2 && validateTemplateComplexity lt.2)

/-- Per-entry body of the `ParseMessages` loop (parser/messages.go): every
locale's template is validated (any failure aborts with an error, modelled
as `none`), and the field references are extracted from the primary
template, the first one delivered by the map iteration. -/
def parseMessageEntry (id : Str) (localeTemplates : List (Str × Str))
    (raw : List (Str × RawVal)) : Option MessageSource :=
  if validateLocaleTemplates localeTemplates then
    some ⟨id, localeTemplates, raw,
      extractFieldInfos (((localeTemplates.head?).map (·.2)).getD [])⟩
  else none

/-- Go string comparison `<`: lexicographic, byte-wise on UTF-8, which
agrees with character-wise comparison by code point. -/
def strLt : Str → Str → Bool
  | _, [] => false
  | [], _ :: _ => true
  | a :: as, b :: bs => a < b || (a == b && strLt as bs)

/-- Insertion into a sorted list, auxiliary for `insertionSortB`. -/
def orderedInsertB (le : α → α → Bool) (a : α) : List α → List α
  | [] => [a]
  | b :: l => if le a b then a :: b :: l else b :: orderedInsertB le a l

/-- Comparison sort with a boolean comparator.  The source uses the unstable
`sort.Slice`; whenever the comparator is total and has no ties (the situation
of every theorem below), every comparison sort returns the same list, so
insertion sort is a faithful model. -/
def insertionSortB (le : α → α → Bool) : List α → List α
  | [] => []
  | a :: l => orderedInsertB le a (insertionSortB le l)

/-- First-match lookup in an association list, the model of Go map
indexing. -/
def lookupAssoc (l : List (Str × β)) (k : Str) : Option β :=
  (l.find? (fun e => e.1 == k)).map (·.2)

/-- Generated item of a placeholder definition (templatex.PlaceholderItem). -/
structure PlaceholderItem where
  ID : Str
  FieldName : Str
  Templates : List (Str × Str)
deriving DecidableEq

/-- Generated placeholder definition (templatex.Placeholder). -/
structure Placeholder where
  StructName : Str
  VarName : Str
  IsValue : Bool
  Items : List PlaceholderItem
deriving DecidableEq

/-- Generated message field (templatex.Field). -/
structure Field where
  FieldName : Str
  Typ : Str
  TemplateKey : Str
deriving DecidableEq

/-- Generated message definition (templatex.Message). -/
structure Message where
  ID : Str
  StructName : Str
  Fields : List Field
  Templates : List (Str × Str)
  RawTemplates : List (Str × RawVal)
  SupportsCount : Bool

/-- The intermediate representation returned by `Build`
(model.Definitions). -/
structure Definitions where
  Messages : List Message
  Placeholders : List Placeholder

/-- Declared placeholder source (model.PlaceholderSource): a kind with its
item map, id to locale to text.  The two nested Go maps are association
lists; the outer list order models the iteration order of the item map. -/
structure PlaceholderSource where
  Kind : Str
  Items : List (Str × List (Str × Str))

/-- Value classification in `Build`: a kind is a Value placeholder exactly
when every item's locale map is empty. -/
def placeholderIsValue (ph : PlaceholderSource) : Bool :=
  ph.Items.all (fun it => it.2.isEmpty)

/-- Generated type name of a declared kind in `Build`. -/
def placeholderTypeName (ph : PlaceholderSource) : Str :=
  toCamelCase ph.Kind ++ (if placeholderIsValue ph then "Value".data else "Text".data)

/-- Sort key used by the item comparator of `Build`: the item's localized
text in the primary locale, falling back to the item ID when that text is
missing or empty. -/
def itemKeyText (phItems : List (Str × List (Str × Str))) (primaryLocale : Str)
    (it : PlaceholderItem) : Str :=
  let v := (lookupAssoc ((lookupAssoc phItems it.ID).getD []) primaryLocale).getD []
  if v = [] then it.ID else v

/-- Strict item comparator of `Build`: by localized text in the primary
locale, with the item ID as the tie-break key. -/
def itemLtB (phItems : List (Str × List (Str × Str))) (primaryLocale : Str)
    (a b : PlaceholderItem) : Bool :=
  if itemKeyText phItems primaryLocale a = itemKeyText phItems primaryLocale b then
    strLt a.ID b.ID
  else strLt (itemKeyText phItems primaryLocale a) (itemKeyText phItems primaryLocale b)

/-- Lexicographic strict order on pairs of strings, the shape of the item
comparator: by first component, with the second as tie break. -/
def pairLt (x y : Str × Str) : Bool :=
  if x.1 = y.1 then strLt x.2 y.2 else strLt x.1 y.1

/-- Sort key of an item in the `Build` item sort: primary-locale text (with
ID fallback) first, item ID second. -/
def itemSortKey (phItems : List (Str × List (Str × Str))) (primaryLocale : Str)
    (it : PlaceholderItem) : Str × Str :=
  (itemKeyText phItems primaryLocale it, it.ID)

/-- Declared-placeholder part of `Build` (model/model.go): classification,
type and variable name generation, item generation, and — only for Text
placeholders — sorting of the items by primary-locale text. -/
def buildPlaceholder (primaryLocale : Str) (ph : PlaceholderSource) : Placeholder :=
  let items := ph.Items.map (fun it => PlaceholderItem.mk it.1 (toCamelCase it.1) it.2)
  { StructName := placeholderTypeName ph
    VarName := ph.Kind ++ "Templates".data
    IsValue := placeholderIsValue ph
    Items :=
      if placeholderIsValue ph then items
      else insertionSortB (fun a b => !(itemLtB ph.Items primaryLocale b a)) items }

/-- The `placeholderTypes` map of `Build`: every declared kind and every one
of its item IDs maps to the kind's generated type name.  Reversal makes the
first-match lookup agree with the Go map, where a later insertion wins. -/
def placeholderTypes (phs : List PlaceholderSource) : List (Str × Str) :=
  ((phs.map (fun ph =>
    (ph.Kind, placeholderTypeName ph) ::
      ph.Items.map (fun it => (it.1, placeholderTypeName ph)))).reverse).flatten

/-- The catalog entries contributed by one declared placeholder source: the
kind name and every item ID, all mapped to the generated type name. -/
def phEntries (ph : PlaceholderSource) : List (Str × Str) :=
  (ph.Kind, placeholderTypeName ph) ::
    ph.Items.map (fun it => (it.1, placeholderTypeName ph))

/-- The placeholder definition synthesized by `Build` for a field base name
that matches no declared kind: a single-item Value kind. -/
def synthPlaceholder (base : Str) : Placeholder :=
  { StructName := toCamelCase base ++ "Value".data
    VarName := base ++ "Templates".data
    IsValue := true
    Items := [⟨base, toCamelCase base, []⟩] }

/-- Body of the field loop of `Build`: plural placeholders are skipped for
the go-i18n backend; a field whose base name matches no declared kind gets a
synthesized Value kind, appended at most once per generated struct name. -/
def processFieldInfo (cfg : Config) (types : List (Str × Str))
    (acc : List Placeholder × List Field) (fi : FieldInfo) :
    List Placeholder × List Field :=
  if cfg.backend == "go-i18n".data && cfg.isPluralPlaceholder fi.Name then acc
  else
    match lookupAssoc types fi.Name with
    | some ty => (acc.1, acc.2 ++ [⟨fi.generateFieldName, ty, fi.generateTemplateKey⟩])
    | none =>
      let ty := toCamelCase fi.Name ++ "Value".data
      let st :=
        if acc.1.any (fun p => p.StructName == ty) then acc.1
        else acc.1 ++ [synthPlaceholder fi.Name]
      (st, acc.2 ++ [⟨fi.generateFieldName, ty, fi.generateTemplateKey⟩])

/-- Modelled from the spec: the source file defining
`ProcessMessageTemplatesWithFieldInfos` is missing from the sources at hand
(only its callers and its tests are present).  Per the spec, every suffixed
occurrence `\x7b\x7b.name:suffix\x7d\x7d` of a per-locale template is
rewritten so that the single generated template key replaces the suffixed
path, the function chain after the first pipe being preserved.  The fuelled
scan mirrors the extraction scan. -/
def rewriteSuffixAux : Nat → Str → Str
  | 0, s => s
  | fuel + 1, s =>
    match subIndex openBraces s with
    | none => s
    | some start =>
      match subIndex closeBraces (s.drop start) with
      | none => s
      | some stop =>
        let expr := trimSpace ((s.drop (start + 2)).take (stop - 2))
        let original := (s.drop start).take (stop + 2)
        let rewritten :=
          match parseFieldExpr expr with
          | some f =>
            if f.Suffix ≠ [] then
              let chain := expr.dropWhile (· != '|')
              openBraces ++ ('.' :: f.generateTemplateKey) ++
                (if chain = [] then [] else ' ' :: chain) ++ closeBraces
            else original
          | none => original
        s.take start ++ rewritten ++ rewriteSuffixAux fuel (s.drop (start + stop + 2))

/-- Modelled from the spec: per-locale application of the suffix
rewriting (`ProcessMessageTemplatesWithFieldInfos`). -/
def processMessageTemplatesWithFieldInfos (templates : List (Str × Str))
    (fis : List FieldInfo) : List (Str × Str) :=
  let _ := fis
  templates.map (fun lt => (lt.1, rewriteSuffixAux lt.2.length lt.2))

/-- Per-message step of `Build`: the field loop threads the placeholder
definition list (for synthesized kinds) and produces the message
definition. -/
def buildStep (cfg : Config) (types : List (Str × Str))
    (acc : List Placeholder × List Message) (msg : MessageSource) :
    List Placeholder × List Message :=
  let fs := msg.FieldInfos.foldl (processFieldInfo cfg types) (acc.1, [])
  (fs.1, acc.2 ++ [{ ID := msg.ID
                     StructName := generateStructName msg.ID
                     Fields := fs.2
                     Templates := processMessageTemplatesWithFieldInfos msg.Templates msg.FieldInfos
                     RawTemplates := msg.RawTemplates
                     SupportsCount := messageSupportsCount msg.Templates cfg }])

/-- Embedding of `Build` (model/model.go): declared placeholder definitions,
the type catalog, the message loop with synthesized Value kinds, and the
final sorts of messages by ID and of placeholders by generated struct
name. -/
def build (messages : List MessageSource) (placeholders : List PlaceholderSource)
    (locales : List Str) (cfg : Config) : Definitions :=
  let primaryLocale := (locales.head?).getD "en".data
  let declared := placeholders.map (buildPlaceholder primaryLocale)
  let types := placeholderTypes placeholders
  let folded := messages.foldl (buildStep cfg types) (declared, [])
  { Messages := insertionSortB (fun a b => !(strLt b.ID a.ID)) folded.2
    Placeholders := insertionSortB (fun a b => !(strLt b.StructName a.StructName)) folded.1 }

/-- The brace balance of a template prefix: the number of opening braces
minus the number of closing braces, which is the running nesting depth of the
scan right after that prefix. -/
def braceDelta (p : Str) : Int :=
  (p.count '{' : Int) - (p.count '}' : Int)

/-- Spec-side count-awareness predicate of the claim: for some locale the
flattened template references a placeholder whose base name matches a
configured plural-placeholder name case-insensitively (the default
configuration holding the built-in name `Count`), or the raw template of
some locale is structurally a plural-category map. -/
def specCountAware (templates : List (Str × Str)) (raw : List (Str × RawVal))
    (cfg : Config) : Bool :=
  let names := if cfg.pluralPlaceholders.isEmpty then defaultPluralPlaceholders
               else cfg.pluralPlaceholders
  templates.any (fun lt =>
    (extractFieldInfos lt.2).any (fun f => names.any (fun p => eqFold f.Name p))) ||
  raw.any (fun lv =>
    match lv.2 with
    | RawVal.vmap _ => true
    | _ => false)

/-- Field produced by the field loop of `Build` for one field reference, or
`none` when the reference is skipped as a plural placeholder; the result
depends on the catalog only through its lookup function. -/
def msgFieldOf (cfg : Config) (types : List (Str × Str)) (fi : FieldInfo) :
    Option Field :=
  if cfg.backend == "go-i18n".data && cfg.isPluralPlaceholder fi.Name then none
  else
    match lookupAssoc types fi.Name with
    | some ty => some ⟨fi.generateFieldName, ty, fi.generateTemplateKey⟩
    | none => some ⟨fi.generateFieldName, toCamelCase fi.Name ++ "Value".data,
        fi.generateTemplateKey⟩

/-- The ordered field list of one message definition. -/
def msgFields (cfg : Config) (types : List (Str × Str)) (fis : List FieldInfo) :
    List Field :=
  fis.filterMap (msgFieldOf cfg types)

/-- State transition of the synthesized-placeholder part of the field loop. -/
def synthStep (cfg : Config) (types : List (Str × Str))
    (st : List Placeholder) (fi : FieldInfo) : List Placeholder :=
  if cfg.backend == "go-i18n".data && cfg.isPluralPlaceholder fi.Name then st
  else
    match lookupAssoc types fi.Name with
    | some _ => st
    | none =>
      if st.any (fun p => p.StructName == toCamelCase fi.Name ++ "Value".data) then st
      else st ++ [synthPlaceholder fi.Name]

/-- The message definition built by `Build` for one message source. -/
def buildMessage (cfg : Config) (types : List (Str × Str)) (msg : MessageSource) :
    Message :=
  { ID := msg.ID
    StructName := generateStructName msg.ID
    Fields := msgFields cfg types msg.FieldInfos
    Templates := processMessageTemplatesWithFieldInfos msg.Templates msg.FieldInfos
    RawTemplates := msg.RawTemplates
    SupportsCount := messageSupportsCount msg.Templates cfg }

/-- Whether a key hits a declared placeholder source: its kind name or one of
its item IDs. -/
def phHasKey (ph : PlaceholderSource) (k : Str) : Prop :=
  k = ph.Kind ∨ k ∈ ph.Items.map (·.1)

/-- Decidability of the catalog-key test. -/
instance decPhHasKey (ph : PlaceholderSource) (k : Str) : Decidable (phHasKey ph k) :=
  decidable_of_iff (k = ph.Kind ∨ k ∈ ph.Items.map (·.1))
    (by unfold phHasKey; exact Iff.rfl)

/-- All catalog keys contributed by the declared placeholder sources. -/
def allPlaceholderKeys (phs : List PlaceholderSource) : List Str :=
  (phs.map (fun ph => ph.Kind :: ph.Items.map (·.1))).flatten

/-- Two placeholder source lists describing the same input, differing only in
the iteration order of the backing maps: the outer list is permuted and each
kind's item list is permuted. -/
def SameSourcePerm (phs phs2 : List PlaceholderSource) : Prop :=
  ∃ mid, List.Perm phs mid ∧
    List.Forall₂ (fun a b => a.Kind = b.Kind ∧ List.Perm a.Items b.Items) mid phs2

/-- Whether a generated struct name already occurs in a placeholder
definition list. -/
def nameIn (st : List Placeholder) (n : Str) : Prop :=
  ∃ q ∈ st, q.StructName = n

/-- A field reference eligible for synthesis: not skipped as a plural
placeholder and matching no catalog entry. -/
def synthEligible (cfg : Config) (types : List (Str × Str)) (fi : FieldInfo) : Prop :=
  ¬(cfg.backend == "go-i18n".data && cfg.isPluralPlaceholder fi.Name) = true ∧
    lookupAssoc types fi.Name = none

theorem strLt_asymm : ∀ (a b : Str), strLt a b = true → strLt b a = false := by
  intro a
  induction a with
  | nil => intro b h; cases b <;> simp [strLt]
  | cons x xs ih =>
    intro b h
    cases b with
    | nil => simp [strLt] at h
    | cons y ys =>
      simp only [strLt, Bool.or_eq_true, Bool.and_eq_true, beq_iff_eq,
        decide_eq_true_eq] at h
      simp only [strLt, Bool.or_eq_false_iff, Bool.and_eq_false_iff, beq_eq_false_iff_ne,
        decide_eq_false_iff_not]
      rcases h with h | ⟨hxy, hlt⟩
      · exact ⟨lt_asymm h, Or.inl fun hyx => absurd (hyx ▸ h) (lt_irrefl y)⟩
      · subst hxy
        exact ⟨lt_irrefl x, Or.inr (ih ys hlt)⟩

theorem strLt_trans : ∀ (a b c : Str), strLt a b = true → strLt b c = true → strLt a c = true := by
  intro a
  induction a with
  | nil =>
    intro b c hab hbc
    cases c with
    | nil => cases b <;> simp [strLt] at hab hbc
    | cons z zs => simp [strLt]
  | cons x xs ih =>
    intro b c hab hbc
    cases b with
    | nil => simp [strLt] at hab
    | cons y ys =>
      cases c with
      | nil => simp [strLt] at hbc
      | cons z zs =>
        simp only [strLt, Bool.or_eq_true, Bool.and_eq_true, beq_iff_eq,
          decide_eq_true_eq] at hab hbc ⊢
        rcases hab with h1 | ⟨h1, h1l⟩
        · rcases hbc with h2 | ⟨h2, h2l⟩
          · exact Or.inl (lt_trans h1 h2)
          · exact Or.inl (h2 ▸ h1)
        · subst h1
          rcases hbc with h2 | ⟨h2, h2l⟩
          · exact Or.inl h2
          · exact Or.inr ⟨h2, ih ys zs h1l h2l⟩

theorem strLt_conn : ∀ (a b : Str), strLt a b = false → strLt b a = false → a = b := by
  intro a
  induction a with
  | nil => intro b h1 h2; cases b with
    | nil => rfl
    | cons y ys => simp [strLt] at h1
  | cons x xs ih =>
    intro b h1 h2
    cases b with
    | nil => simp [strLt] at h2
    | cons y ys =>
      simp only [strLt, Bool.or_eq_false_iff, Bool.and_eq_false_iff, beq_eq_false_iff_ne,
        decide_eq_false_iff_not] at h1 h2
      have hxy : x = y := le_antisymm (not_lt.mp h2.1) (not_lt.mp h1.1)
      subst hxy
      rcases h1.2 with h | h
      · exact absurd rfl h
      · rcases h2.2 with h2r | h2r
        · exact absurd rfl h2r
        · exact congrArg (x :: ·) (ih ys h h2r)

theorem perm_orderedInsertB (le : α → α → Bool) (a : α) :
    ∀ l : List α, List.Perm (orderedInsertB le a l) (a :: l) := by
  intro l
  induction l with
  | nil => simp [orderedInsertB]
  | cons b l ih =>
    by_cases h : le a b = true
    · simp [orderedInsertB, h]
    · simp only [orderedInsertB, h]
      simp only [Bool.false_eq_true, if_false]
      exact (ih.cons b).trans (List.Perm.swap a b l)

theorem perm_insertionSortB (le : α → α → Bool) :
    ∀ l : List α, List.Perm (insertionSortB le l) l := by
  intro l
  induction l with
  | nil => simp [insertionSortB]
  | cons a l ih =>
    exact (perm_orderedInsertB le a (insertionSortB le l)).trans (ih.cons a)

theorem pairwise_orderedInsertB (le : α → α → Bool)
    (htot : ∀ a b, le a b = true ∨ le b a = true)
    (htrans : ∀ a b c, le a b = true → le b c = true → le a c = true)
    (a : α) : ∀ l : List α, l.Pairwise (fun x y => le x y = true) →
    (orderedInsertB le a l).Pairwise (fun x y => le x y = true) := by
  intro l
  induction l with
  | nil => intro _; simp [orderedInsertB]
  | cons b l ih =>
    intro hp
    by_cases h : le a b = true
    · simp only [orderedInsertB, h, if_true]
      refine List.Pairwise.cons ?_ hp
      intro z hz
      rcases List.mem_cons.mp hz with hz | hz
      · exact hz ▸ h
      · exact htrans a b z h ((List.pairwise_cons.mp hp).1 z hz)
    · simp only [orderedInsertB, h]
      simp only [Bool.false_eq_true, if_false]
      have hba : le b a = true := by
        rcases htot a b with h1 | h1
        · exact absurd h1 h
        · exact h1
      refine List.Pairwise.cons ?_ (ih (List.pairwise_cons.mp hp).2)
      intro z hz
      rcases List.mem_cons.mp ((perm_orderedInsertB le a l).mem_iff.mp hz) with hz2 | hz2
      · exact hz2 ▸ hba
      · exact (List.pairwise_cons.mp hp).1 z hz2

theorem pairwise_insertionSortB (le : α → α → Bool)
    (htot : ∀ a b, le a b = true ∨ le b a = true)
    (htrans : ∀ a b c, le a b = true → le b c = true → le a c = true) :
    ∀ l : List α, (insertionSortB le l).Pairwise (fun x y => le x y = true) := by
  intro l
  induction l with
  | nil => simp [insertionSortB]
  | cons a l ih => exact pairwise_orderedInsertB le htot htrans a _ ih

theorem sortByKey_le_total {κ : Type} (key : α → κ) (ltk : κ → κ → Bool)
    (hasym : ∀ x y, ltk x y = true → ltk y x = false) :
    ∀ a b : α, (!(ltk (key b) (key a))) = true ∨ (!(ltk (key a) (key b))) = true := by
  intro a b
  by_cases h : ltk (key b) (key a) = true
  · exact Or.inr (by simp [hasym _ _ h])
  · exact Or.inl (by simp [h])

theorem sortByKey_le_trans {κ : Type} (key : α → κ) (ltk : κ → κ → Bool)
    (htrans : ∀ x y z, ltk x y = true → ltk y z = true → ltk x z = true)
    (hconn : ∀ x y, ltk x y = false → ltk y x = false → x = y) :
    ∀ a b c : α, (!(ltk (key b) (key a))) = true → (!(ltk (key c) (key b))) = true →
      (!(ltk (key c) (key a))) = true := by
  intro a b c h1 h2
  simp only [Bool.not_eq_true'] at h1 h2 ⊢
  by_contra hca
  have hca2 : ltk (key c) (key a) = true := by
    cases h : ltk (key c) (key a)
    · exact absurd h hca
    · rfl
  by_cases hab : ltk (key a) (key b) = true
  · have := htrans (key c) (key a) (key b) hca2 hab
    simp [this] at h2
  · have hab2 : ltk (key a) (key b) = false := by
      cases h : ltk (key a) (key b)
      · rfl
      · exact absurd h hab
    have := hconn (key a) (key b) hab2 h1
    rw [this] at hca2
    simp [hca2] at h2

theorem sortByKey_unique {κ : Type} (key : α → κ) (ltk : κ → κ → Bool)
    (htrans : ∀ x y z, ltk x y = true → ltk y z = true → ltk x z = true)
    (hasym : ∀ x y, ltk x y = true → ltk y x = false)
    (hconn : ∀ x y, ltk x y = false → ltk y x = false → x = y)
    (l1 l2 : List α) (hperm : List.Perm l1 l2)
    (hnodup : l1.Nodup)
    (hinj : ∀ a ∈ l1, ∀ b ∈ l1, key a = key b → a = b) :
    insertionSortB (fun a b => !(ltk (key b) (key a))) l1
      = insertionSortB (fun a b => !(ltk (key b) (key a))) l2 := by
  set le := fun a b : α => !(ltk (key b) (key a)) with hle
  have hperm1 : List.Perm (insertionSortB le l1) l1 := perm_insertionSortB le l1
  have hperm2 : List.Perm (insertionSortB le l2) l2 := perm_insertionSortB le l2
  have hp12 : List.Perm (insertionSortB le l1) (insertionSortB le l2) :=
    (hperm1.trans hperm).trans hperm2.symm
  have htot := sortByKey_le_total key ltk hasym
  have hletr := sortByKey_le_trans key ltk htrans hconn
  have hpw1 : (insertionSortB le l1).Pairwise (fun x y => le x y = true) :=
    pairwise_insertionSortB le htot hletr l1
  have hpw2 : (insertionSortB le l2).Pairwise (fun x y => le x y = true) :=
    pairwise_insertionSortB le htot hletr l2
  have hnd1 : (insertionSortB le l1).Nodup := hperm1.symm.nodup_iff.mp hnodup
  have hnd2 : (insertionSortB le l2).Nodup := hp12.nodup_iff.mp hnd1
  have hmem1 : ∀ a ∈ insertionSortB le l1, a ∈ l1 := fun a ha => hperm1.mem_iff.mp ha
  have hmem2 : ∀ a ∈ insertionSortB le l2, a ∈ l1 :=
    fun a ha => hperm.mem_iff.mpr (hperm2.mem_iff.mp ha)
  have strictify : ∀ m : List α, m.Pairwise (fun x y => le x y = true) → m.Nodup →
      (∀ a ∈ m, a ∈ l1) → m.Pairwise (fun x y => ltk (key x) (key y) = true) := by
    intro m hpw hnd hmem
    have hand := hpw.and hnd
    refine List.Pairwise.imp_of_mem ?_ hand
    intro a b ha hb hab
    rcases hab with ⟨hab1, hab2⟩
    simp only [hle, Bool.not_eq_true'] at hab1
    cases h : ltk (key a) (key b)
    · exact absurd (hinj a (hmem a ha) b (hmem b hb) (hconn _ _ h hab1)) hab2
    · rfl
  have hs1 := strictify _ hpw1 hnd1 hmem1
  have hs2 := strictify _ hpw2 hnd2 hmem2
  haveI : IsAntisymm α (fun x y => ltk (key x) (key y) = true) :=
    ⟨fun a b h1 h2 => absurd (hasym _ _ h1) (by simp [h2])⟩
  exact List.eq_of_perm_of_sorted hp12 hs1 hs2

theorem braceDelta_nil : braceDelta [] = 0 := by simp [braceDelta]

theorem braceDelta_cons (c : Char) (t : Str) :
    braceDelta (c :: t) =
      (if c = '{' then (1 : Int) else if c = '}' then -1 else 0) + braceDelta t := by
  by_cases h1 : c = '{'
  · subst h1; simp [braceDelta, List.count_cons]; omega
  · by_cases h2 : c = '}'
    · subst h2; simp [braceDelta, List.count_cons, h1]; omega
    · simp only [braceDelta, List.count_cons, if_neg h1, if_neg h2]
      simp [h1, h2]

theorem braceDepthScan_ge : ∀ (t : Str) (cur maxd : Int), maxd ≤ braceDepthScan t cur maxd := by
  intro t
  induction t with
  | nil => intro cur maxd; simp [braceDepthScan]
  | cons c rest ih =>
    intro cur maxd
    simp only [braceDepthScan]
    by_cases h1 : c = '{'
    · simp only [if_pos h1]
      exact le_trans (le_max_left maxd (cur + 1)) (ih (cur + 1) (max maxd (cur + 1)))
    · by_cases h2 : c = '}'
      · simp only [if_neg h1, if_pos h2]; exact ih (cur - 1) maxd
      · simp only [if_neg h1, if_neg h2]; exact ih cur maxd

theorem braceDepthScan_upper :
    ∀ (t : Str) (cur maxd : Int) (i : Nat),
      cur + braceDelta (t.take i) ≤ max (braceDepthScan t cur maxd) cur := by
  intro t
  induction t with
  | nil =>
    intro cur maxd i
    simp [braceDepthScan, braceDelta]
  | cons c rest ih =>
    intro cur maxd i
    cases i with
    | zero => simp [braceDelta]
    | succ j =>
      simp only [List.take_succ_cons, braceDelta_cons, braceDepthScan]
      by_cases h1 : c = '{'
      · simp only [if_pos h1]
        have hIH := ih (cur + 1) (max maxd (cur + 1)) j
        have hge : max maxd (cur + 1) ≤ braceDepthScan rest (cur + 1) (max maxd (cur + 1)) :=
          braceDepthScan_ge rest (cur + 1) (max maxd (cur + 1))
        have h2 : cur + 1 ≤ braceDepthScan rest (cur + 1) (max maxd (cur + 1)) :=
          le_trans (le_max_right maxd (cur + 1)) hge
        have h3 : max (braceDepthScan rest (cur + 1) (max maxd (cur + 1))) (cur + 1)
            = braceDepthScan rest (cur + 1) (max maxd (cur + 1)) := max_eq_left h2
        rw [h3] at hIH
        calc cur + (1 + braceDelta (rest.take j))
            = cur + 1 + braceDelta (rest.take j) := by ring
          _ ≤ braceDepthScan rest (cur + 1) (max maxd (cur + 1)) := hIH
          _ ≤ max (braceDepthScan rest (cur + 1) (max maxd (cur + 1))) cur := le_max_left _ _
      · by_cases h2 : c = '}'
        · simp only [if_neg h1, if_pos h2]
          have hIH := ih (cur - 1) maxd j
          have hmono : max (braceDepthScan rest (cur - 1) maxd) (cur - 1)
              ≤ max (braceDepthScan rest (cur - 1) maxd) cur :=
            max_le_max le_rfl (by omega)
          calc cur + (-1 + braceDelta (rest.take j))
              = cur - 1 + braceDelta (rest.take j) := by ring
            _ ≤ max (braceDepthScan rest (cur - 1) maxd) (cur - 1) := hIH
            _ ≤ max (braceDepthScan rest (cur - 1) maxd) cur := hmono
        · simp only [if_neg h1, if_neg h2]
          have hIH := ih cur maxd j
          calc cur + (0 + braceDelta (rest.take j))
              = cur + braceDelta (rest.take j) := by ring
            _ ≤ max (braceDepthScan rest cur maxd) cur := hIH

theorem braceDepthScan_reached :
    ∀ (t : Str) (cur maxd B : Int), B < braceDepthScan t cur maxd →
      B < maxd ∨ ∃ i : Nat, B < cur + braceDelta (t.take i) := by
  intro t
  induction t with
  | nil =>
    intro cur maxd B h
    exact Or.inl (by simpa [braceDepthScan] using h)
  | cons c rest ih =>
    intro cur maxd B h
    simp only [braceDepthScan] at h
    by_cases h1 : c = '{'
    · rw [if_pos h1] at h
      rcases ih (cur + 1) (max maxd (cur + 1)) B h with hm | ⟨i, hi⟩
      · rcases lt_max_iff.mp hm with hm2 | hm2
        · exact Or.inl hm2
        · refine Or.inr ⟨1, ?_⟩
          simp only [List.take_succ_cons, List.take_zero, braceDelta_cons, if_pos h1,
            braceDelta_nil]
          omega
      · refine Or.inr ⟨i + 1, ?_⟩
        simp only [List.take_succ_cons, braceDelta_cons, if_pos h1]
        omega
    · by_cases h2 : c = '}'
      · rw [if_neg h1, if_pos h2] at h
        rcases ih (cur - 1) maxd B h with hm | ⟨i, hi⟩
        · exact Or.inl hm
        · refine Or.inr ⟨i + 1, ?_⟩
          simp only [List.take_succ_cons, braceDelta_cons, if_neg h1, if_pos h2]
          omega
      · rw [if_neg h1, if_neg h2] at h
        rcases ih cur maxd B h with hm | ⟨i, hi⟩
        · exact Or.inl hm
        · refine Or.inr ⟨i + 1, ?_⟩
          simp only [List.take_succ_cons, braceDelta_cons, if_neg h1, if_neg h2]
          omega

theorem braceDepthScan_gt_iff (t : Str) :
    5 < braceDepthScan t 0 0 ↔ ∃ i : Nat, 5 < braceDelta (t.take i) := by
  constructor
  · intro h
    rcases braceDepthScan_reached t 0 0 5 h with hm | ⟨i, hi⟩
    · omega
    · exact ⟨i, by omega⟩
  · rintro ⟨i, hi⟩
    have := braceDepthScan_upper t 0 0 i
    rcases le_max_iff.mp this with hh | hh
    · omega
    · omega

theorem prefixOf_exists : ∀ (p l : Str), p.isPrefixOf l = true ↔ ∃ v, l = p ++ v := by
  intro p
  induction p with
  | nil => intro l; simp [List.isPrefixOf]
  | cons a as ih =>
    intro l
    cases l with
    | nil => simp [List.isPrefixOf]
    | cons b bs =>
      simp only [List.isPrefixOf, Bool.and_eq_true, beq_iff_eq, ih bs, List.cons_append,
        List.cons.injEq]
      constructor
      · rintro ⟨hab, v, hv⟩; exact ⟨v, hab.symm, hv⟩
      · rintro ⟨v, hab, hv⟩; exact ⟨hab.symm, v, hv⟩

theorem subIndex_some_spec : ∀ (s : Str) (p : Str) (i : Nat), subIndex p s = some i →
    i ≤ s.length ∧ (∃ v, s.drop i = p ++ v) ∧
      ∀ k < i, ¬∃ v, s.drop k = p ++ v := by
  intro s
  induction s with
  | nil =>
    intro p i h
    simp only [subIndex] at h
    by_cases hp : p.isPrefixOf ([] : Str) = true
    · rw [if_pos hp] at h
      cases h
      refine ⟨by simp, ⟨[], ?_⟩, by omega⟩
      rcases (prefixOf_exists p []).mp hp with ⟨v, hv⟩
      cases p
      · simp
      · simp at hv
    · rw [if_neg hp] at h; cases h
  | cons c rest ih =>
    intro p i h
    simp only [subIndex] at h
    by_cases hp : p.isPrefixOf (c :: rest) = true
    · rw [if_pos hp] at h
      cases h
      exact ⟨by simp, by simpa using (prefixOf_exists p (c :: rest)).mp hp, by omega⟩
    · rw [if_neg hp] at h
      cases hsub : subIndex p rest with
      | none => rw [hsub] at h; cases h
      | some j =>
        rw [hsub] at h
        have h3 : some (j + 1) = some i := h
        injection h3 with h4
        subst h4
        rcases ih p j hsub with ⟨hlen, ⟨v, hv⟩, hmin⟩
        refine ⟨by simp; omega, ⟨v, by simpa using hv⟩, ?_⟩
        intro k hk
        cases k with
        | zero =>
          intro ⟨v2, hv2⟩
          exact hp ((prefixOf_exists p (c :: rest)).mpr ⟨v2, by simpa using hv2⟩)
        | succ k2 =>
          intro ⟨v2, hv2⟩
          exact hmin k2 (by omega) ⟨v2, by simpa using hv2⟩

theorem subIndex_none_spec : ∀ (s : Str) (p : Str), subIndex p s = none →
    ∀ k, ¬∃ v, s.drop k = p ++ v := by
  intro s
  induction s with
  | nil =>
    intro p h k
    simp only [subIndex] at h
    by_cases hp : p.isPrefixOf ([] : Str) = true
    · rw [if_pos hp] at h; cases h
    · rintro ⟨v, hv⟩
      simp only [List.drop_nil] at hv
      exact hp ((prefixOf_exists p []).mpr ⟨v, hv⟩)
  | cons c rest ih =>
    intro p h k
    simp only [subIndex] at h
    by_cases hp : p.isPrefixOf (c :: rest) = true
    · rw [if_pos hp] at h; cases h
    · rw [if_neg hp] at h
      cases hsub : subIndex p rest with
      | none =>
        cases k with
        | zero =>
          rintro ⟨v, hv⟩
          exact hp ((prefixOf_exists p (c :: rest)).mpr ⟨v, by simpa using hv⟩)
        | succ k2 =>
          rintro ⟨v, hv⟩
          exact ih p hsub k2 ⟨v, by simpa using hv⟩
      | some j => rw [hsub] at h; exact Option.noConfusion h

theorem subIndex_isSome_iff (p s : Str) :
    (subIndex p s).isSome = true ↔ ∃ u v, s = u ++ p ++ v := by
  constructor
  · intro h
    cases hsub : subIndex p s with
    | none => rw [hsub] at h; cases h
    | some i =>
      rcases subIndex_some_spec s p i hsub with ⟨hlen, ⟨v, hv⟩, _⟩
      refine ⟨s.take i, v, ?_⟩
      calc s = s.take i ++ s.drop i := (List.take_append_drop i s).symm
        _ = s.take i ++ (p ++ v) := by rw [hv]
        _ = s.take i ++ p ++ v := by simp
  · rintro ⟨u, v, hv⟩
    cases hsub : subIndex p s with
    | none =>
      exfalso
      refine subIndex_none_spec s p hsub u.length ⟨v, ?_⟩
      rw [hv]
      simp only [List.append_assoc]
      exact List.drop_left u (p ++ v)
    | some i => simp

theorem extractFieldInfosAux_nil : ∀ fuel : Nat, extractFieldInfosAux fuel [] = [] := by
  intro fuel
  cases fuel with
  | zero => rfl
  | succ g =>
    have h : subIndex openBraces [] = none := by decide
    simp [extractFieldInfosAux, h]

theorem extractFieldInfosAux_fuel :
    ∀ (f1 : Nat) (s : Str) (f2 : Nat), s.length ≤ f1 → s.length ≤ f2 →
      extractFieldInfosAux f1 s = extractFieldInfosAux f2 s := by
  intro f1
  induction f1 with
  | zero =>
    intro s f2 h1 _
    have hs : s = [] := List.eq_nil_of_length_eq_zero (by omega)
    subst hs
    rw [extractFieldInfosAux_nil, extractFieldInfosAux_nil]
  | succ g ih =>
    intro s f2 h1 h2
    cases f2 with
    | zero =>
      have hs : s = [] := List.eq_nil_of_length_eq_zero (by omega)
      subst hs
      rw [extractFieldInfosAux_nil, extractFieldInfosAux_nil]
    | succ h =>
      simp only [extractFieldInfosAux]
      cases hsub : subIndex openBraces s with
      | none => rfl
      | some start =>
        dsimp only
        cases hsub2 : subIndex closeBraces (s.drop start) with
        | none => rfl
        | some stop =>
          have hlen : (s.drop (start + stop + 2)).length ≤ g ∧
              (s.drop (start + stop + 2)).length ≤ h := by
            rcases subIndex_some_spec s openBraces start hsub with ⟨hle, ⟨v, hv⟩, _⟩
            have hnz : 1 ≤ s.length := by
              by_contra hz
              have hs : s = [] := List.eq_nil_of_length_eq_zero (by omega)
              subst hs
              simp [show subIndex openBraces ([] : Str) = none from by decide] at hsub
            simp only [List.length_drop]
            omega
          dsimp only
          rw [ih (s.drop (start + stop + 2)) h hlen.1 hlen.2]

theorem extractFieldInfos_step (t : Str) :
    extractFieldInfos t =
      match subIndex openBraces t with
      | none => []
      | some start =>
        match subIndex closeBraces (t.drop start) with
        | none => []
        | some stop =>
          (parseFieldExpr (trimSpace ((t.drop (start + 2)).take (stop - 2)))).toList ++
            extractFieldInfos (t.drop (start + stop + 2)) := by
  cases ht : t with
  | nil => simp [extractFieldInfos, extractFieldInfosAux_nil,
      show subIndex openBraces ([] : Str) = none from by decide]
  | cons c cs =>
    show extractFieldInfosAux (c :: cs).length (c :: cs) = _
    simp only [List.length_cons, extractFieldInfosAux]
    cases hsub : subIndex openBraces (c :: cs) with
    | none => rfl
    | some start =>
      dsimp only
      cases hsub2 : subIndex closeBraces ((c :: cs).drop start) with
      | none => rfl
      | some stop =>
        have heq : extractFieldInfosAux cs.length ((c :: cs).drop (start + stop + 2)) =
            extractFieldInfos ((c :: cs).drop (start + stop + 2)) := by
          apply extractFieldInfosAux_fuel
          · simp only [List.length_drop, List.length_cons]; omega
          · exact le_rfl
        dsimp only
        rw [heq]

example : extractFieldInfos "\x7b\x7b.entity\x7d\x7d".data = [⟨"entity".data, []⟩] := by decide

example : extractFieldInfos "\x7b\x7b.entity:from | title\x7d\x7d".data
    = [⟨"entity".data, "from".data⟩] := by decide

example : extractFieldInfos "a\x7b\x7b.x | f\x7d\x7db\x7b\x7by\x7d\x7d\x7b\x7b .x \x7d\x7d\x7b\x7b.z:s\x7d\x7d\x7b\x7b.w".data
    = [⟨"x".data, []⟩, ⟨"x".data, []⟩, ⟨"z".data, "s".data⟩] := by decide

example : validateNoDuplicatePlaceholders "\x7b\x7b.x\x7d\x7d\x7b\x7b.x\x7d\x7d".data = false := by decide

example : validateNoDuplicatePlaceholders "\x7b\x7b.x:a\x7d\x7d\x7b\x7b.x:a\x7d\x7d".data = true := by decide

example : validateTemplateComplexity "\x7b\x7b\x7b\x7b\x7b\x7b".data = false := by decide

example : validateTemplateComplexity "\x7b\x7b.x\x7d\x7d".data = true := by decide

theorem count_unsuffixed (l : List FieldInfo) (n : Str) :
    (l.filterMap (fun f => if f.Suffix = [] then some f.Name else none)).count n
      = l.count ⟨n, []⟩ := by
  induction l with
  | nil => rfl
  | cons f l ih =>
    obtain ⟨fn, fs⟩ := f
    by_cases hs : fs = []
    · subst hs
      have hstep : ((⟨fn, []⟩ : FieldInfo) :: l).filterMap
          (fun f => if f.Suffix = [] then some f.Name else none)
          = fn :: l.filterMap (fun f => if f.Suffix = [] then some f.Name else none) := by
        simp [List.filterMap_cons]
      rw [hstep, List.count_cons, List.count_cons, ih]
      by_cases hn : n = fn
      · subst hn; simp
      · have e1 : (fn == n) = false := by
          simp only [beq_eq_false_iff_ne, ne_eq]
          intro hh; exact hn hh.symm
        have e2 : ((⟨fn, []⟩ : FieldInfo) == ⟨n, []⟩) = false := by
          simp only [beq_eq_false_iff_ne, ne_eq, FieldInfo.mk.injEq, not_and]
          intro hh; exact absurd hh.symm hn
        rw [e1, e2]
    · have hstep : ((⟨fn, fs⟩ : FieldInfo) :: l).filterMap
          (fun f => if f.Suffix = [] then some f.Name else none)
          = l.filterMap (fun f => if f.Suffix = [] then some f.Name else none) := by
        simp [List.filterMap_cons, hs]
      rw [hstep, ih, List.count_cons]
      have e2 : ((⟨fn, fs⟩ : FieldInfo) == ⟨n, []⟩) = false := by
        simp only [beq_eq_false_iff_ne, ne_eq, FieldInfo.mk.injEq, not_and]
        intro _ hh; exact hs hh
      rw [e2]
      simp

theorem validate_iff (t : Str) :
    validateNoDuplicatePlaceholders t = true ↔
      ∀ n ∈ unsuffixedNames t, (unsuffixedNames t).count n ≤ 1 := by
  unfold validateNoDuplicatePlaceholders duplicatedNames
  rw [List.isEmpty_iff, List.dedup_eq_nil, List.filter_eq_nil_iff]
  constructor
  · intro h n hn
    have := h n hn
    simp only [decide_eq_true_eq] at this
    omega
  · intro h n hn
    simp only [decide_eq_true_eq]
    have := h n hn
    omega

theorem complexity_false_iff (t : Str) :
    validateTemplateComplexity t = false ↔
      (5 < braceDepthScan t 0 0 ∨ 20 < countOpenBraces t) := by
  unfold validateTemplateComplexity
  by_cases h1 : 5 < braceDepthScan t 0 0
  · simp [h1]
  · by_cases h2 : 20 < countOpenBraces t
    · simp [h1, h2]
    · simp [h1, h2]

/-- C7: complexity validation fails exactly when the running brace depth
(incremented at each opening brace, decremented at each closing brace, so
the depth after a prefix is its brace balance) exceeds `5` after some prefix
of the scan, or the number of non-overlapping `\x7b\x7b` occurrences exceeds
`20`; otherwise the check passes. -/
theorem c7_complexity_validation (t : Str) :
    validateTemplateComplexity t = false ↔
      ((∃ i : Nat, 5 < braceDelta (t.take i)) ∨ 20 < countOpenBraces t) := by
  rw [complexity_false_iff, braceDepthScan_gt_iff]

/-- Witness for C7 at concrete inputs: six nested opening braces fail by
depth; a plain template passes since neither bound is exceeded. -/
theorem c7_complexity_validation_witness :
    validateTemplateComplexity "\x7b\x7b\x7b\x7b\x7b\x7b".data = false ∧
      validateTemplateComplexity "\x7b\x7b.x\x7d\x7d".data = true := by
  constructor
  · exact (c7_complexity_validation "\x7b\x7b\x7b\x7b\x7b\x7b".data).mpr
      (Or.inl ⟨6, by decide⟩)
  · decide

/-- C8: the generated field name is the camel case of the base name followed
by the camel case of the suffix when a suffix exists, and just the camel case
of the base name otherwise; the generated template key keeps the base name
verbatim and appends the camel case of the suffix; camel casing uppercases
the first character of every underscore-separated segment.  The three
concrete derivations of the claim are included. -/
theorem c8_identifier_derivation :
    (∀ f : FieldInfo, f.Suffix ≠ [] →
      f.generateFieldName = toCamelCase f.Name ++ toCamelCase f.Suffix ∧
      f.generateTemplateKey = f.Name ++ toCamelCase f.Suffix) ∧
    (∀ f : FieldInfo, f.Suffix = [] →
      f.generateFieldName = toCamelCase f.Name ∧
      f.generateTemplateKey = f.Name) ∧
    (∀ s : Str, toCamelCase s = ((s.splitOn '_').map upperFirst).flatten) ∧
    FieldInfo.generateFieldName ⟨"email_address".data, []⟩ = "EmailAddress".data ∧
    FieldInfo.generateFieldName ⟨"entity".data, "from_location".data⟩
      = "EntityFromLocation".data ∧
    FieldInfo.generateTemplateKey ⟨"entity".data, "from".data⟩ = "entityFrom".data := by
  refine ⟨?_, ?_, ?_, by decide, by decide, by decide⟩
  · intro f hf
    constructor
    · simp [FieldInfo.generateFieldName, hf]
    · simp [FieldInfo.generateTemplateKey, hf]
  · intro f hf
    constructor
    · simp [FieldInfo.generateFieldName, hf]
    · simp [FieldInfo.generateTemplateKey, hf]
  · intro s; rfl

/-- Witness for C8: the general equations applied at the concrete reference
with base `entity` and suffix `from`. -/
theorem c8_identifier_derivation_witness :
    (⟨"entity".data, "from".data⟩ : FieldInfo).generateFieldName
        = toCamelCase "entity".data ++ toCamelCase "from".data ∧
      (⟨"entity".data, "from".data⟩ : FieldInfo).generateTemplateKey
        = "entity".data ++ toCamelCase "from".data := by
  exact c8_identifier_derivation.1 ⟨"entity".data, "from".data⟩ (by decide)

/-- C4 (amended only in formulation, confirmed): when an unsuffixed base name
occurs at least twice among the extracted field references, validation fails
and one of the reported duplicate names is that base name; and any template
whose unsuffixed references are pairwise distinct — in particular one
obtained by giving every repeated occurrence a distinct suffix — passes the
duplicate check.  Concrete pair: a twice-repeated unsuffixed `x` fails, and
the suffixed variants pass. -/
theorem c4_duplicate_validation :
    (∀ t : Str, ∀ n : Str, 2 ≤ (extractFieldInfos t).count ⟨n, []⟩ →
      validateNoDuplicatePlaceholders t = false ∧ n ∈ duplicatedNames t) ∧
    (∀ t : Str, (∀ n ∈ unsuffixedNames t, (unsuffixedNames t).count n ≤ 1) →
      validateNoDuplicatePlaceholders t = true) ∧
    validateNoDuplicatePlaceholders "\x7b\x7b.x\x7d\x7d and \x7b\x7b.x\x7d\x7d".data = false ∧
    validateNoDuplicatePlaceholders "\x7b\x7b.x:a\x7d\x7d and \x7b\x7b.x:b\x7d\x7d".data = true := by
  refine ⟨?_, ?_, by decide, by decide⟩
  · intro t n hcount
    rw [← count_unsuffixed (extractFieldInfos t) n] at hcount
    have hcount2 : 2 ≤ (unsuffixedNames t).count n := hcount
    have hmem : n ∈ unsuffixedNames t := by
      rw [← List.count_pos_iff]
      omega
    have hdup : n ∈ duplicatedNames t := by
      unfold duplicatedNames
      rw [List.mem_dedup, List.mem_filter]
      exact ⟨hmem, by simpa using hcount2⟩
    refine ⟨?_, hdup⟩
    cases hv : validateNoDuplicatePlaceholders t
    · rfl
    · exfalso
      have := (validate_iff t).mp hv n hmem
      omega
  · intro t h
    exact (validate_iff t).mpr h

/-- Witness for C4: the general parts applied at the two concrete templates
of the claim. -/
theorem c4_duplicate_validation_witness :
    (validateNoDuplicatePlaceholders "\x7b\x7b.x\x7d\x7d\x7b\x7b.x\x7d\x7d".data = false ∧
      "x".data ∈ duplicatedNames "\x7b\x7b.x\x7d\x7d\x7b\x7b.x\x7d\x7d".data) ∧
    validateNoDuplicatePlaceholders "\x7b\x7b.x:a\x7d\x7d\x7b\x7b.x:b\x7d\x7d".data = true := by
  constructor
  · exact c4_duplicate_validation.1 "\x7b\x7b.x\x7d\x7d\x7b\x7b.x\x7d\x7d".data "x".data
      (by decide)
  · exact c4_duplicate_validation.2.1 "\x7b\x7b.x:a\x7d\x7d\x7b\x7b.x:b\x7d\x7d".data
      (by decide)

/-- C10 as stated is too broad: a template in which a suffixed pair repeats
can still fail validation when, additionally, some unsuffixed base name
repeats.  Here `\x7b\x7b.x:a\x7d\x7d` occurs twice, yet validation rejects
the template because the unsuffixed `y` also occurs twice. -/
theorem c10_counterexample :
    2 ≤ (extractFieldInfos
        "\x7b\x7b.x:a\x7d\x7d\x7b\x7b.x:a\x7d\x7d\x7b\x7b.y\x7d\x7d\x7b\x7b.y\x7d\x7d".data).count
        ⟨"x".data, "a".data⟩ ∧
    validateNoDuplicatePlaceholders
        "\x7b\x7b.x:a\x7d\x7d\x7b\x7b.x:a\x7d\x7d\x7b\x7b.y\x7d\x7d\x7b\x7b.y\x7d\x7d".data
      = false := by
  decide

/-- C10 amended: a template in which a (base name, suffix) pair with a
non-empty suffix occurs two or more times among the extracted references
passes duplicate-placeholder validation, provided no unsuffixed base name
also occurs twice (each name among the unsuffixed occurrences appears at
most once): only occurrences without a suffix are counted toward
duplication, so repeated identical suffixed references never cause failure
by themselves.  The concrete template with `\x7b\x7b.name:a\x7d\x7d` twice
is accepted. -/
theorem c10_suffixed_repeats_accepted :
    (∀ t : Str, ∀ b s : Str, s ≠ [] →
      2 ≤ (extractFieldInfos t).count ⟨b, s⟩ →
      (∀ n ∈ unsuffixedNames t, (unsuffixedNames t).count n ≤ 1) →
      validateNoDuplicatePlaceholders t = true) ∧
    validateNoDuplicatePlaceholders "\x7b\x7b.name:a\x7d\x7d \x7b\x7b.name:a\x7d\x7d".data
      = true := by
  refine ⟨?_, by decide⟩
  intro t b s _ _ h
  exact (validate_iff t).mpr h

/-- Witness for C10: the general statement applied at a template holding a
twice-repeated suffixed pair next to a single unsuffixed reference. -/
theorem c10_suffixed_repeats_accepted_witness :
    validateNoDuplicatePlaceholders
        "\x7b\x7b.x:a\x7d\x7d\x7b\x7b.x:a\x7d\x7d\x7b\x7b.y\x7d\x7d".data = true :=
  c10_suffixed_repeats_accepted.1
    "\x7b\x7b.x:a\x7d\x7d\x7b\x7b.x:a\x7d\x7d\x7b\x7b.y\x7d\x7d".data
    "x".data "a".data (by decide) (by decide) (by decide)

/-- C5: extraction scans left-to-right for delimiter pairs.  The first
conjunct is the scan recurrence: the leftmost opening delimiter is located,
then the leftmost closing delimiter from it (a missing one silently ends the
scan without a partial field, an empty result), the trimmed expression
between them contributes its optional field, and the scan continues after
the closing delimiter, preserving encounter order and duplicates.  The next
conjuncts pin the meaning of the delimiter search (an occurrence exists iff
the string splits around the pattern; the found index is the leftmost), that
a trimmed expression not beginning with a dot contributes no field, and a
concrete template exercising pipe stripping, whitespace trimming of name and
suffix, a non-field expression, duplicates in encounter order, and an
unterminated opening delimiter. -/
theorem c5_extraction_scan :
    (∀ t : Str, extractFieldInfos t =
      match subIndex openBraces t with
      | none => []
      | some start =>
        match subIndex closeBraces (t.drop start) with
        | none => []
        | some stop =>
          (parseFieldExpr (trimSpace ((t.drop (start + 2)).take (stop - 2)))).toList ++
            extractFieldInfos (t.drop (start + stop + 2))) ∧
    (∀ p t : Str, (subIndex p t).isSome = true ↔ ∃ u v, t = u ++ p ++ v) ∧
    (∀ (p t : Str) (i : Nat), subIndex p t = some i →
      (∃ v, t.drop i = p ++ v) ∧ ∀ k < i, ¬∃ v, t.drop k = p ++ v) ∧
    (∀ e : Str, (∀ rest : Str, e ≠ '.' :: rest) → parseFieldExpr e = none) ∧
    extractFieldInfos
        "a\x7b\x7b.x | f\x7d\x7db\x7b\x7by\x7d\x7d\x7b\x7b. z : s \x7d\x7d\x7b\x7b.x\x7d\x7d\x7b\x7b.w".data
      = [⟨"x".data, []⟩, ⟨"z".data, "s".data⟩, ⟨"x".data, []⟩] := by
  refine ⟨extractFieldInfos_step, subIndex_isSome_iff, ?_, ?_, by decide⟩
  · intro p t i h
    rcases subIndex_some_spec t p i h with ⟨_, h2, h3⟩
    exact ⟨h2, h3⟩
  · intro e he
    cases e with
    | nil => rfl
    | cons c rest =>
      by_cases hc : c = '.'
      · exact absurd (hc ▸ rfl) (he rest)
      · simp [parseFieldExpr, hc]

/-- Witness for C5: the leftmost-occurrence characterization applied at a
concrete string, and the recurrence applied at a concrete template. -/
theorem c5_extraction_scan_witness :
    (subIndex openBraces "a\x7b\x7bb".data).isSome = true ∧
      parseFieldExpr ['y', 'z'] = none := by
  constructor
  · exact (c5_extraction_scan.2.1 openBraces "a\x7b\x7bb".data).mpr
      ⟨"a".data, "b".data, by decide⟩
  · refine c5_extraction_scan.2.2.2.1 ['y', 'z'] ?_
    intro rest h
    injection h with h1 h2
    exact absurd h1 (by decide)

theorem firstStringValue_mem :
    ∀ (m : List (Str × RawVal)) (s : Str), firstStringValue m = some s →
      ∃ k, (k, RawVal.vstr s) ∈ m := by
  intro m
  induction m with
  | nil => intro s h; cases h
  | cons e rest ih =>
    intro s h
    obtain ⟨k, v⟩ := e
    cases v with
    | vstr s2 =>
      simp only [firstStringValue] at h
      injection h with h2
      exact ⟨k, by rw [h2]; exact List.mem_cons_self _ _⟩
    | vmap mm =>
      rcases ih s h with ⟨k2, hk2⟩
      exact ⟨k2, List.mem_cons_of_mem _ hk2⟩
    | vother r =>
      rcases ih s h with ⟨k2, hk2⟩
      exact ⟨k2, List.mem_cons_of_mem _ hk2⟩

theorem firstStringValue_none :
    ∀ m : List (Str × RawVal), firstStringValue m = none →
      ∀ (k : Str) (s : Str), (k, RawVal.vstr s) ∉ m := by
  intro m
  induction m with
  | nil => intro _ k s h; exact absurd h (List.not_mem_nil _)
  | cons e rest ih =>
    intro h k s hmem
    obtain ⟨k2, v⟩ := e
    cases v with
    | vstr s2 => exact Option.noConfusion h
    | vmap mm =>
      rcases List.mem_cons.mp hmem with heq | hmem2
      · cases heq
      · exact ih h k s hmem2
    | vother r =>
      rcases List.mem_cons.mp hmem with heq | hmem2
      · cases heq
      · exact ih h k s hmem2

/-- C6 counterexample: the empty map is structurally a plural-category map
(vacuously, every entry is a string), yet flattening it returns the fixed
fallback template rather than an available string value of the map, of which
there are none — so the claim's case split is not exhaustive on the code. -/
theorem c6_counterexample :
    convertPluralToTemplate [] = "\x7b\x7b.Count\x7d\x7d items".data ∧
      ¬∃ (k s : Str), (k, RawVal.vstr s) ∈ ([] : List (Str × RawVal)) ∧
        convertPluralToTemplate [] = s := by
  refine ⟨rfl, ?_⟩
  rintro ⟨k, s, hmem, _⟩
  exact absurd hmem (List.not_mem_nil _)

/-- C6 amended: flattening a plural-category map prefers the `other` entry
when it is a string, then the `one` entry when it is a string, then some
available string value of the map (an entry of the map with that string
value exists); when the map holds no string value at all the fixed fallback
`\x7b\x7b.Count\x7d\x7d items` is returned.  Flattening an already-flat
string is the identity. -/
theorem c6_flattening :
    (∀ (m : List (Str × RawVal)) (s : Str),
      lookupRaw m "other".data = some (RawVal.vstr s) → convertPluralToTemplate m = s) ∧
    (∀ (m : List (Str × RawVal)) (s : Str),
      (∀ s2, lookupRaw m "other".data ≠ some (RawVal.vstr s2)) →
      lookupRaw m "one".data = some (RawVal.vstr s) → convertPluralToTemplate m = s) ∧
    (∀ (m : List (Str × RawVal)) (s : Str),
      (∀ s2, lookupRaw m "other".data ≠ some (RawVal.vstr s2)) →
      (∀ s2, lookupRaw m "one".data ≠ some (RawVal.vstr s2)) →
      firstStringValue m = some s →
      (∃ k, (k, RawVal.vstr s) ∈ m) ∧ convertPluralToTemplate m = s) ∧
    (∀ m : List (Str × RawVal),
      (∀ s2, lookupRaw m "other".data ≠ some (RawVal.vstr s2)) →
      (∀ s2, lookupRaw m "one".data ≠ some (RawVal.vstr s2)) →
      firstStringValue m = none →
      (∀ (k s2 : Str), (k, RawVal.vstr s2) ∉ m) ∧
        convertPluralToTemplate m = "\x7b\x7b.Count\x7d\x7d items".data) ∧
    (∀ s : Str, flattenRawValue (RawVal.vstr s) = s) := by
  have hstep : ∀ (m : List (Str × RawVal)),
      (∀ s2, lookupRaw m "other".data ≠ some (RawVal.vstr s2)) →
      convertPluralToTemplate m =
        (match lookupRaw m "one".data with
         | some (RawVal.vstr s) => s
         | _ =>
           match firstStringValue m with
           | some s => s
           | none => "\x7b\x7b.Count\x7d\x7d items".data) := by
    intro m hother
    unfold convertPluralToTemplate
    cases ho : lookupRaw m "other".data with
    | none => rfl
    | some v =>
      cases v with
      | vstr s2 => exact absurd ho (hother s2)
      | vmap mm => rfl
      | vother r => rfl
  have hstep2 : ∀ (m : List (Str × RawVal)),
      (∀ s2, lookupRaw m "other".data ≠ some (RawVal.vstr s2)) →
      (∀ s2, lookupRaw m "one".data ≠ some (RawVal.vstr s2)) →
      convertPluralToTemplate m =
        (match firstStringValue m with
         | some s => s
         | none => "\x7b\x7b.Count\x7d\x7d items".data) := by
    intro m hother hone
    rw [hstep m hother]
    cases ho : lookupRaw m "one".data with
    | none => rfl
    | some v =>
      cases v with
      | vstr s2 => exact absurd ho (hone s2)
      | vmap mm => rfl
      | vother r => rfl
  refine ⟨?_, ?_, ?_, ?_, fun s => rfl⟩
  · intro m s h
    unfold convertPluralToTemplate
    rw [h]
  · intro m s hother h
    rw [hstep m hother, h]
  · intro m s hother hone h
    refine ⟨firstStringValue_mem m s h, ?_⟩
    rw [hstep2 m hother hone, h]
  · intro m hother hone h
    refine ⟨firstStringValue_none m h, ?_⟩
    rw [hstep2 m hother hone, h]

/-- Witness for C6: the priority cases applied at concrete maps, matching
the spec example where `other` wins over `one`. -/
theorem c6_flattening_witness :
    convertPluralToTemplate
        [("one".data, RawVal.vstr "1 item".data),
         ("other".data, RawVal.vstr "N items".data)] = "N items".data ∧
      convertPluralToTemplate [("one".data, RawVal.vstr "1 item".data)] = "1 item".data := by
  constructor
  · exact c6_flattening.1 _ "N items".data rfl
  · refine c6_flattening.2.1 _ "1 item".data ?_ rfl
    intro s2 h
    exact Option.noConfusion h

/-- C2 counterexample: a validated message entry can carry two field
references with the same (baseName, suffix) identity.  The template
`\x7b\x7b.x:a\x7d\x7d\x7b\x7b.x:a\x7d\x7d` passes validation (both
occurrences are suffixed), and the attached field list holds the identity
(`x`, `a`) twice — repeated suffixed references are not deduplicated. -/
theorem c2_counterexample :
    (parseMessageEntry "m".data
        [("en".data, "\x7b\x7b.x:a\x7d\x7d\x7b\x7b.x:a\x7d\x7d".data)] []).map
        (fun ms => ms.FieldInfos)
      = some [⟨"x".data, "a".data⟩, ⟨"x".data, "a".data⟩] ∧
    (parseMessageEntry "m".data
        [("en".data, "\x7b\x7b.x:a\x7d\x7d\x7b\x7b.x:a\x7d\x7d".data)] []).map
        (fun ms => ms.FieldInfos.count ⟨"x".data, "a".data⟩)
      = some 2 := by
  constructor <;> decide

/-- C2 amended: the field list attached by the `ParseMessages` entry loop is
exactly the extraction of the primary template in encounter order, with
duplicates of suffixed identities preserved; validation guarantees that each
identity without a suffix occurs at most once. -/
theorem c2_field_list (id : Str) (lts : List (Str × Str)) (raw : List (Str × RawVal))
    (ms : MessageSource) (h : parseMessageEntry id lts raw = some ms) :
    ms.FieldInfos = extractFieldInfos (((lts.head?).map (·.2)).getD []) ∧
      ∀ n : Str, ms.FieldInfos.count ⟨n, []⟩ ≤ 1 := by
  unfold parseMessageEntry at h
  by_cases hv : validateLocaleTemplates lts = true
  · rw [if_pos hv] at h
    injection h with h2
    subst h2
    refine ⟨rfl, ?_⟩
    intro n
    dsimp only
    cases hl : lts with
    | nil =>
      have h0 : List.count (⟨n, []⟩ : FieldInfo)
          (extractFieldInfos (((([] : List (Str × Str)).head?).map (·.2)).getD [])) = 0 := rfl
      omega
    | cons p rest =>
      subst hl
      have hvp : validateNoDuplicatePlaceholders p.2 = true := by
        simp only [validateLocaleTemplates, List.all_cons, Bool.and_eq_true] at hv
        exact hv.1.1
      have hred : (((p :: rest).head?).map (·.2)).getD ([] : Str) = p.2 := rfl
      rw [hred, ← count_unsuffixed (extractFieldInfos p.2) n]
      have hbr : ((extractFieldInfos p.2).filterMap
          (fun f => if f.Suffix = [] then some f.Name else none)) = unsuffixedNames p.2 := rfl
      rw [hbr]
      by_cases hm : n ∈ unsuffixedNames p.2
      · exact (validate_iff p.2).mp hvp n hm
      · rw [List.count_eq_zero_of_not_mem hm]
        omega
  · rw [if_neg hv] at h
    cases h

/-- Witness for C2: the amended statement applied at a concrete passing
entry with one unsuffixed reference. -/
theorem c2_field_list_witness :
    (extractFieldInfos "\x7b\x7b.a\x7d\x7d".data).count ⟨"a".data, []⟩ ≤ 1 := by
  have h := c2_field_list "m".data [("en".data, "\x7b\x7b.a\x7d\x7d".data)] []
      ⟨"m".data, [("en".data, "\x7b\x7b.a\x7d\x7d".data)], [],
        extractFieldInfos "\x7b\x7b.a\x7d\x7d".data⟩ rfl
  exact h.2 "a".data

/-- C3 counterexample: with the go-i18n backend and the default
configuration, the spec-side predicate of the claim (case-insensitive match
of a referenced base name against a configured plural-placeholder name, or a
structurally plural raw template) holds for the template
`\x7b\x7b.COUNT\x7d\x7d`, yet `messageSupportsCount` returns `false`: the
code only matches a configured name verbatim or in its all-lowercase form,
never case-insensitively. -/
theorem c3_counterexample :
    messageSupportsCount [("en".data, "\x7b\x7b.COUNT\x7d\x7d".data)]
        ⟨"go-i18n".data, []⟩ = false ∧
      specCountAware [("en".data, "\x7b\x7b.COUNT\x7d\x7d".data)]
        [("en".data, RawVal.vstr "\x7b\x7b.COUNT\x7d\x7d".data)]
        ⟨"go-i18n".data, []⟩ = true := by
  constructor <;> decide

/-- C3 amended: a message is marked count-aware exactly when the backend is
go-i18n and, for some locale, the flattened template contains a whole
delimited expression naming a configured plural placeholder verbatim or in
its all-lowercase variant (the default set being `Count` and `count`), or
the flattened template contains one of the substrings `one:`, `other:`,
`few:`, `many:`, `zero:`.  The second conjunct characterizes the matched
name set: every configured name together with its lowercase form when that
differs. -/
theorem c3_supports_count :
    (∀ (templates : List (Str × Str)) (cfg : Config),
      messageSupportsCount templates cfg = true ↔
        (cfg.backend = "go-i18n".data ∧ ∃ lt ∈ templates,
          (∃ p ∈ cfg.getPluralPlaceholders, matchesPluralPattern p lt.2 = true) ∨
          ∃ marker ∈ pluralKeyMarkers, containsSub marker lt.2 = true)) ∧
    (∀ (cfg : Config) (p : Str),
      p ∈ cfg.getPluralPlaceholders ↔
        ∃ q ∈ (if cfg.pluralPlaceholders.isEmpty then defaultPluralPlaceholders
               else cfg.pluralPlaceholders),
          p = q ∨ (p = lowerStr q ∧ lowerStr q ≠ q)) := by
  constructor
  · intro templates cfg
    by_cases hb : cfg.backend = "go-i18n".data
    · have hb2 : (cfg.backend == "go-i18n".data) = true := by simp [hb]
      unfold messageSupportsCount
      rw [if_pos hb2]
      simp only [List.any_eq_true, Bool.or_eq_true, containsPluralMarker]
      constructor
      · rintro ⟨lt, hlt, h⟩
        exact ⟨hb, lt, hlt, h⟩
      · rintro ⟨-, lt, hlt, h⟩
        exact ⟨lt, hlt, h⟩
    · have hb2 : (cfg.backend == "go-i18n".data) = false := by simp [hb]
      unfold messageSupportsCount
      rw [if_neg (by simp [hb2])]
      simp [hb]
  · intro cfg p
    constructor
    · intro hp
      unfold Config.getPluralPlaceholders at hp
      rcases List.mem_flatten.mp hp with ⟨l, hl, hpl⟩
      rcases List.mem_map.mp hl with ⟨q, hq, hfq⟩
      refine ⟨q, hq, ?_⟩
      rw [← hfq] at hpl
      rcases List.mem_cons.mp hpl with h | h
      · exact Or.inl h
      · by_cases hlq : lowerStr q ≠ q
        · rw [if_pos hlq] at h
          exact Or.inr ⟨List.mem_singleton.mp h, hlq⟩
        · rw [if_neg hlq] at h
          exact absurd h (List.not_mem_nil p)
    · rintro ⟨q, hq, hcase⟩
      unfold Config.getPluralPlaceholders
      apply List.mem_flatten.mpr
      refine ⟨q :: (if lowerStr q ≠ q then [lowerStr q] else []),
        List.mem_map_of_mem _ hq, ?_⟩
      rcases hcase with h | ⟨h, hne⟩
      · exact h ▸ List.mem_cons_self _ _
      · refine List.mem_cons_of_mem _ ?_
        rw [if_pos hne, h]
        exact List.mem_singleton_self _

/-- Witness for C3: the amended characterization applied at the default
configuration and a template carrying the built-in `Count` placeholder. -/
theorem c3_supports_count_witness :
    messageSupportsCount [("en".data, "\x7b\x7b.Count\x7d\x7d".data)]
        ⟨"go-i18n".data, []⟩ = true := by
  apply (c3_supports_count.1 _ _).mpr
  refine ⟨rfl, ("en".data, "\x7b\x7b.Count\x7d\x7d".data), by decide, Or.inl ?_⟩
  exact ⟨"Count".data, by decide, by decide⟩

theorem processFieldInfo_fst_ext (cfg : Config) (types : List (Str × Str))
    (acc : List Placeholder × List Field) (fi : FieldInfo) :
    ∃ l, (processFieldInfo cfg types acc fi).1 = acc.1 ++ l := by
  unfold processFieldInfo
  by_cases hskip : (cfg.backend == "go-i18n".data && cfg.isPluralPlaceholder fi.Name) = true
  · rw [if_pos hskip]; exact ⟨[], by simp⟩
  · rw [if_neg hskip]
    cases hl : lookupAssoc types fi.Name with
    | some ty => exact ⟨[], by simp⟩
    | none =>
      dsimp only
      by_cases he : (acc.1.any
          (fun p => p.StructName == toCamelCase fi.Name ++ "Value".data)) = true
      · rw [if_pos he]; exact ⟨[], by simp⟩
      · rw [if_neg he]; exact ⟨[synthPlaceholder fi.Name], rfl⟩

theorem fold_processFieldInfo_fst_ext (cfg : Config) (types : List (Str × Str)) :
    ∀ (fis : List FieldInfo) (acc : List Placeholder × List Field),
      ∃ l, (fis.foldl (processFieldInfo cfg types) acc).1 = acc.1 ++ l := by
  intro fis
  induction fis with
  | nil => intro acc; exact ⟨[], by simp⟩
  | cons fi rest ih =>
    intro acc
    rcases processFieldInfo_fst_ext cfg types acc fi with ⟨l1, hl1⟩
    rcases ih (processFieldInfo cfg types acc fi) with ⟨l2, hl2⟩
    exact ⟨l1 ++ l2, by simp only [List.foldl_cons, hl2, hl1, List.append_assoc]⟩

theorem fold_buildStep_fst_ext (cfg : Config) (types : List (Str × Str)) :
    ∀ (msgs : List MessageSource) (acc : List Placeholder × List Message),
      ∃ l, (msgs.foldl (buildStep cfg types) acc).1 = acc.1 ++ l := by
  intro msgs
  induction msgs with
  | nil => intro acc; exact ⟨[], by simp⟩
  | cons msg rest ih =>
    intro acc
    rcases fold_processFieldInfo_fst_ext cfg types msg.FieldInfos (acc.1, []) with ⟨l1, hl1⟩
    rcases ih (buildStep cfg types acc msg) with ⟨l2, hl2⟩
    refine ⟨l1 ++ l2, ?_⟩
    rw [List.foldl_cons, hl2]
    unfold buildStep
    dsimp only
    rw [hl1, List.append_assoc]

theorem mem_build_placeholders (msgs : List MessageSource)
    (phs : List PlaceholderSource) (locales : List Str) (cfg : Config)
    (ph : PlaceholderSource) (hmem : ph ∈ phs) :
    buildPlaceholder ((locales.head?).getD "en".data) ph
      ∈ (build msgs phs locales cfg).Placeholders := by
  unfold build
  dsimp only
  rcases fold_buildStep_fst_ext cfg (placeholderTypes phs) msgs
      (phs.map (buildPlaceholder ((locales.head?).getD "en".data)), []) with ⟨l, hl⟩
  apply (perm_insertionSortB _ _).mem_iff.mpr
  rw [hl]
  exact List.mem_append_left l
    (List.mem_map_of_mem (buildPlaceholder ((locales.head?).getD "en".data)) hmem)

theorem perm_all_eq {l1 l2 : List α} (h : List.Perm l1 l2) (p : α → Bool) :
    l1.all p = l2.all p := by
  cases hb : l2.all p
  · rw [List.all_eq_false] at hb ⊢
    rcases hb with ⟨x, hx, hpx⟩
    exact ⟨x, h.mem_iff.mpr hx, hpx⟩
  · rw [List.all_eq_true] at hb ⊢
    intro x hx
    exact hb x (h.mem_iff.mp hx)

theorem nodup_map_inj {g : α → β} {l : List α} (h : (l.map g).Nodup) :
    ∀ x ∈ l, ∀ y ∈ l, g x = g y → x = y := by
  intro x hx y hy hxy
  by_contra hne
  have hp : l.Pairwise (fun a b => g a ≠ g b) := List.pairwise_map.mp h
  exact (hp.forall (fun a b hh => Ne.symm hh) hx hy hne) hxy

theorem perm_eq_of_length_le_one {l1 l2 : List α} (h : List.Perm l1 l2)
    (hlen : l1.length ≤ 1) : l1 = l2 := by
  cases l1 with
  | nil => exact h.nil_eq
  | cons a rest =>
    cases rest with
    | nil =>
      have := h.length_eq
      cases l2 with
      | nil => simp at this
      | cons b r2 =>
        cases r2 with
        | nil =>
          have hm : a ∈ [b] := h.mem_iff.mp (List.mem_singleton_self a)
          rw [List.mem_singleton.mp hm]
        | cons c r3 => simp at this
    | cons b r => simp at hlen

theorem lookupAssoc_perm {β : Type} {l1 l2 : List (Str × β)} (h : List.Perm l1 l2)
    (hnd : (l1.map (·.1)).Nodup) (k : Str) : lookupAssoc l1 k = lookupAssoc l2 k := by
  induction h with
  | nil => rfl
  | cons x h2 ih =>
    simp only [List.map_cons, List.nodup_cons] at hnd
    unfold lookupAssoc at *
    simp only [List.find?_cons]
    cases hx : (x.1 == k)
    · exact ih hnd.2
    · rfl
  | swap x y rest =>
    simp only [List.map_cons, List.nodup_cons, List.mem_cons] at hnd
    unfold lookupAssoc
    simp only [List.find?_cons]
    cases hx : (x.1 == k) <;> cases hy : (y.1 == k)
    · rfl
    · rfl
    · rfl
    · exfalso
      rw [beq_iff_eq] at hx hy
      exact hnd.1 (Or.inl (hy.trans hx.symm))
  | trans h1 h2 ih1 ih2 =>
    rw [ih1 hnd]
    exact ih2 ((h1.map (·.1)).nodup_iff.mp hnd)

theorem forall₂_mem_right {R : α → β → Prop} :
    ∀ {l1 : List α} {l2 : List β}, List.Forall₂ R l1 l2 → ∀ b ∈ l2, ∃ a ∈ l1, R a b := by
  intro l1 l2 h
  induction h with
  | nil => intro b hb; exact absurd hb (List.not_mem_nil b)
  | cons hr h2 ih =>
    intro b hb
    rcases List.mem_cons.mp hb with hb | hb
    · exact ⟨_, List.mem_cons_self _ _, hb ▸ hr⟩
    · rcases ih b hb with ⟨a, ha, har⟩
      exact ⟨a, List.mem_cons_of_mem _ ha, har⟩

theorem forall₂_mem_left {R : α → β → Prop} :
    ∀ {l1 : List α} {l2 : List β}, List.Forall₂ R l1 l2 → ∀ a ∈ l1, ∃ b ∈ l2, R a b := by
  intro l1 l2 h
  induction h with
  | nil => intro a ha; exact absurd ha (List.not_mem_nil a)
  | cons hr h2 ih =>
    intro a ha
    rcases List.mem_cons.mp ha with ha | ha
    · exact ⟨_, List.mem_cons_self _ _, ha ▸ hr⟩
    · rcases ih a ha with ⟨b, hb, hbr⟩
      exact ⟨b, List.mem_cons_of_mem _ hb, hbr⟩

theorem forall₂_map_rel {R : α → β → Prop} {S : γ → δ → Prop} (f : α → γ) (g : β → δ)
    (hfg : ∀ a b, R a b → S (f a) (g b)) :
    ∀ {l1 : List α} {l2 : List β}, List.Forall₂ R l1 l2 →
      List.Forall₂ S (l1.map f) (l2.map g) := by
  intro l1 l2 h
  induction h with
  | nil => exact List.Forall₂.nil
  | cons hr h2 ih => exact List.Forall₂.cons (hfg _ _ hr) ih

theorem forall₂_eq_map_eq :
    ∀ {l1 l2 : List α}, List.Forall₂ (fun a b => a = b) l1 l2 → l1 = l2 := by
  intro l1 l2 h
  induction h with
  | nil => rfl
  | cons hr h2 ih => rw [hr, ih]

theorem processFieldInfo_eq (cfg : Config) (types : List (Str × Str))
    (acc : List Placeholder × List Field) (fi : FieldInfo) :
    processFieldInfo cfg types acc fi =
      (synthStep cfg types acc.1 fi, acc.2 ++ (msgFieldOf cfg types fi).toList) := by
  unfold processFieldInfo synthStep msgFieldOf
  by_cases hskip : (cfg.backend == "go-i18n".data && cfg.isPluralPlaceholder fi.Name) = true
  · rw [if_pos hskip, if_pos hskip, if_pos hskip]
    simp
  · rw [if_neg hskip, if_neg hskip, if_neg hskip]
    cases hl : lookupAssoc types fi.Name with
    | some ty => simp
    | none =>
      dsimp only
      by_cases he : (acc.1.any
          (fun p => p.StructName == toCamelCase fi.Name ++ "Value".data)) = true
      · rw [if_pos he]; simp
      · rw [if_neg he]; simp

theorem fold_processFieldInfo_eq (cfg : Config) (types : List (Str × Str)) :
    ∀ (fis : List FieldInfo) (st : List Placeholder) (fs : List Field),
      fis.foldl (processFieldInfo cfg types) (st, fs)
        = (fis.foldl (synthStep cfg types) st, fs ++ msgFields cfg types fis) := by
  intro fis
  induction fis with
  | nil => intro st fs; simp [msgFields]
  | cons fi rest ih =>
    intro st fs
    rw [List.foldl_cons, processFieldInfo_eq, ih, List.foldl_cons]
    unfold msgFields
    rw [List.filterMap_cons]
    cases hf : msgFieldOf cfg types fi with
    | none => simp
    | some fld => simp [msgFields]

theorem buildStep_eq (cfg : Config) (types : List (Str × Str))
    (acc : List Placeholder × List Message) (msg : MessageSource) :
    buildStep cfg types acc msg =
      (msg.FieldInfos.foldl (synthStep cfg types) acc.1,
       acc.2 ++ [buildMessage cfg types msg]) := by
  unfold buildStep buildMessage
  rw [fold_processFieldInfo_eq]
  simp [msgFields]

theorem fold_buildStep_eq (cfg : Config) (types : List (Str × Str)) :
    ∀ (msgs : List MessageSource) (st : List Placeholder) (ms : List Message),
      msgs.foldl (buildStep cfg types) (st, ms)
        = (((msgs.map (·.FieldInfos)).flatten).foldl (synthStep cfg types) st,
           ms ++ msgs.map (buildMessage cfg types)) := by
  intro msgs
  induction msgs with
  | nil => intro st ms; simp
  | cons msg rest ih =>
    intro st ms
    rw [List.foldl_cons, buildStep_eq, ih]
    simp [List.foldl_append]

theorem build_eq (msgs : List MessageSource) (phs : List PlaceholderSource)
    (locales : List Str) (cfg : Config) :
    build msgs phs locales cfg =
      { Messages := insertionSortB (fun a b => !(strLt b.ID a.ID))
          (msgs.map (buildMessage cfg (placeholderTypes phs)))
        Placeholders := insertionSortB (fun a b => !(strLt b.StructName a.StructName))
          (((msgs.map (·.FieldInfos)).flatten).foldl
            (synthStep cfg (placeholderTypes phs))
            (phs.map (buildPlaceholder ((locales.head?).getD "en".data)))) } := by
  unfold build
  dsimp only
  rw [fold_buildStep_eq]
  simp

theorem placeholderTypes_cons (ph : PlaceholderSource) (rest : List PlaceholderSource) :
    placeholderTypes (ph :: rest) = placeholderTypes rest ++ phEntries ph := by
  unfold placeholderTypes phEntries
  rw [List.map_cons, List.reverse_cons, List.flatten_append]
  simp

theorem lookupAssoc_append {β : Type} (l1 l2 : List (Str × β)) (k : Str) :
    lookupAssoc (l1 ++ l2) k = (lookupAssoc l1 k).or (lookupAssoc l2 k) := by
  unfold lookupAssoc
  rw [List.find?_append]
  cases hx : List.find? (fun e => e.1 == k) l1 <;> simp [Option.or]

theorem lookupAssoc_map_const (items : List (Str × List (Str × Str))) (c : Str) (k : Str) :
    lookupAssoc (items.map (fun it => (it.1, c))) k =
      if k ∈ items.map (·.1) then some c else none := by
  induction items with
  | nil => simp [lookupAssoc]
  | cons it rest ih =>
    unfold lookupAssoc at *
    simp only [List.map_cons, List.find?_cons]
    by_cases h1 : it.1 = k
    · have hb : ((it.1, c).1 == k) = true := by simp [h1]
      rw [hb]
      rw [if_pos (List.mem_cons.mpr (Or.inl h1.symm))]
      rfl
    · have hb : ((it.1, c).1 == k) = false := by
        simp only [beq_eq_false_iff_ne, ne_eq]
        exact h1
      rw [hb]
      dsimp only
      rw [ih]
      by_cases h2 : k ∈ rest.map (·.1)
      · rw [if_pos h2, if_pos (List.mem_cons.mpr (Or.inr h2))]
      · rw [if_neg h2, if_neg ?_]
        rw [List.mem_cons]
        rintro (h | h)
        · exact h1 h.symm
        · exact h2 h

theorem lookupAssoc_phEntries (ph : PlaceholderSource) (k : Str) :
    lookupAssoc (phEntries ph) k =
      if phHasKey ph k then some (placeholderTypeName ph) else none := by
  unfold phEntries phHasKey lookupAssoc
  rw [List.find?_cons]
  by_cases h1 : k = ph.Kind
  · have hb : ((ph.Kind, placeholderTypeName ph).1 == k) = true := by simp [h1]
    rw [hb, if_pos (Or.inl h1)]
    rfl
  · have hb : ((ph.Kind, placeholderTypeName ph).1 == k) = false := by simp; exact fun hh => h1 hh.symm
    rw [hb]
    have := lookupAssoc_map_const ph.Items (placeholderTypeName ph) k
    unfold lookupAssoc at this
    rw [this]
    by_cases h2 : k ∈ ph.Items.map (·.1)
    · rw [if_pos h2, if_pos (Or.inr h2)]
    · rw [if_neg h2, if_neg ?_]
      rintro (h | h)
      · exact h1 h
      · exact h2 h

theorem mem_allPlaceholderKeys {phs : List PlaceholderSource} {ph : PlaceholderSource}
    {k : Str} (hmem : ph ∈ phs) (hkey : phHasKey ph k) : k ∈ allPlaceholderKeys phs := by
  unfold allPlaceholderKeys
  apply List.mem_flatten.mpr
  refine ⟨ph.Kind :: ph.Items.map (·.1), List.mem_map_of_mem _ hmem, ?_⟩
  rcases hkey with h | h
  · exact h ▸ List.mem_cons_self _ _
  · exact List.mem_cons_of_mem _ h

theorem lookupAssoc_placeholderTypes_none :
    ∀ (phs : List PlaceholderSource) (k : Str),
      (∀ ph ∈ phs, ¬ phHasKey ph k) → lookupAssoc (placeholderTypes phs) k = none := by
  intro phs
  induction phs with
  | nil => intro k _; rfl
  | cons ph rest ih =>
    intro k h
    rw [placeholderTypes_cons, lookupAssoc_append,
      ih k (fun ph2 hm => h ph2 (List.mem_cons_of_mem _ hm)),
      lookupAssoc_phEntries, if_neg (h ph (List.mem_cons_self _ _))]
    rfl

theorem lookupAssoc_placeholderTypes_some :
    ∀ (phs : List PlaceholderSource) (k : Str) (ph : PlaceholderSource),
      (allPlaceholderKeys phs).Nodup → ph ∈ phs → phHasKey ph k →
      lookupAssoc (placeholderTypes phs) k = some (placeholderTypeName ph) := by
  intro phs
  induction phs with
  | nil => intro k ph _ hm; exact absurd hm (List.not_mem_nil ph)
  | cons ph0 rest ih =>
    intro k ph hnd hmem hkey
    have hnd2 : ((ph0.Kind :: ph0.Items.map (·.1)) ++ allPlaceholderKeys rest).Nodup := by
      have : allPlaceholderKeys (ph0 :: rest)
          = (ph0.Kind :: ph0.Items.map (·.1)) ++ allPlaceholderKeys rest := by
        unfold allPlaceholderKeys
        rw [List.map_cons, List.flatten_cons]
      rw [← this]
      exact hnd
    rw [List.nodup_append] at hnd2
    rw [placeholderTypes_cons, lookupAssoc_append]
    rcases List.mem_cons.mp hmem with heq | hmem2
    · subst heq
      have hnot : ∀ ph2 ∈ rest, ¬ phHasKey ph2 k := by
        intro ph2 hm2 hk2
        have hin0 : k ∈ ph.Kind :: ph.Items.map (·.1) := by
          rcases hkey with h | h
          · exact h ▸ List.mem_cons_self _ _
          · exact List.mem_cons_of_mem _ h
        exact hnd2.2.2 hin0 (mem_allPlaceholderKeys hm2 hk2)
      rw [lookupAssoc_placeholderTypes_none rest k hnot,
        lookupAssoc_phEntries, if_pos hkey]
      rfl
    · rw [ih k ph hnd2.2.1 hmem2 hkey]
      rfl

theorem keysOf_perm {a b : PlaceholderSource}
    (hrel : a.Kind = b.Kind ∧ List.Perm a.Items b.Items) :
    List.Perm (a.Kind :: a.Items.map (·.1)) (b.Kind :: b.Items.map (·.1)) := by
  rw [hrel.1]
  exact (hrel.2.map (·.1)).cons b.Kind

theorem allPlaceholderKeys_perm {phs phs2 : List PlaceholderSource}
    (hrel : SameSourcePerm phs phs2) :
    List.Perm (allPlaceholderKeys phs) (allPlaceholderKeys phs2) := by
  obtain ⟨mid, hperm, hf2⟩ := hrel
  unfold allPlaceholderKeys
  refine List.Perm.trans ((hperm.map _).flatten) (List.Perm.flatten_congr ?_)
  exact forall₂_map_rel _ _ (fun a b hr => keysOf_perm hr) hf2

theorem placeholderTypeName_congr {a b : PlaceholderSource}
    (hrel : a.Kind = b.Kind ∧ List.Perm a.Items b.Items) :
    placeholderTypeName a = placeholderTypeName b := by
  unfold placeholderTypeName placeholderIsValue
  rw [hrel.1, perm_all_eq hrel.2]

theorem phHasKey_congr {a b : PlaceholderSource}
    (hrel : a.Kind = b.Kind ∧ List.Perm a.Items b.Items) (k : Str) :
    phHasKey a k ↔ phHasKey b k := by
  unfold phHasKey
  rw [hrel.1, (hrel.2.map (·.1)).mem_iff]

theorem placeholderTypes_lookup_congr {phs phs2 : List PlaceholderSource}
    (hrel : SameSourcePerm phs phs2)
    (hkeys : (allPlaceholderKeys phs).Nodup) (k : Str) :
    lookupAssoc (placeholderTypes phs) k = lookupAssoc (placeholderTypes phs2) k := by
  have hkeys2 : (allPlaceholderKeys phs2).Nodup :=
    (allPlaceholderKeys_perm hrel).nodup_iff.mp hkeys
  obtain ⟨mid, hperm, hf2⟩ := hrel
  by_cases hex : ∃ ph ∈ phs, phHasKey ph k
  · obtain ⟨ph, hmem, hkey⟩ := hex
    obtain ⟨ph2, hmem2, hrel2⟩ := forall₂_mem_left hf2 ph (hperm.mem_iff.mp hmem)
    rw [lookupAssoc_placeholderTypes_some phs k ph hkeys hmem hkey,
      lookupAssoc_placeholderTypes_some phs2 k ph2 hkeys2 hmem2
        ((phHasKey_congr hrel2 k).mp hkey)]
    exact congrArg some (placeholderTypeName_congr hrel2)
  · push_neg at hex
    rw [lookupAssoc_placeholderTypes_none phs k hex,
      lookupAssoc_placeholderTypes_none phs2 k ?_]
    intro ph2 hmem2
    obtain ⟨a, ha, har⟩ := forall₂_mem_right hf2 ph2 hmem2
    rw [← phHasKey_congr har k]
    exact hex a (hperm.mem_iff.mpr ha)

theorem pairLt_trans : ∀ x y z : Str × Str,
    pairLt x y = true → pairLt y z = true → pairLt x z = true := by
  intro x y z hxy hyz
  unfold pairLt at *
  by_cases h1 : x.1 = y.1
  · rw [if_pos h1] at hxy
    by_cases h2 : y.1 = z.1
    · rw [if_pos h2] at hyz
      rw [if_pos (h1.trans h2)]
      exact strLt_trans _ _ _ hxy hyz
    · rw [if_neg h2] at hyz
      rw [if_neg (fun hh => h2 (h1.symm.trans hh)), h1]
      exact hyz
  · rw [if_neg h1] at hxy
    by_cases h2 : y.1 = z.1
    · rw [if_neg (fun hh => h1 (hh.trans h2.symm)), ← h2]
      exact hxy
    · rw [if_neg h2] at hyz
      have h3 : x.1 ≠ z.1 := by
        intro hh
        rw [hh] at hxy
        have := strLt_asymm _ _ hxy
        rw [this] at hyz
        cases hyz
      rw [if_neg h3]
      exact strLt_trans _ _ _ hxy hyz

theorem pairLt_asymm : ∀ x y : Str × Str, pairLt x y = true → pairLt y x = false := by
  intro x y hxy
  unfold pairLt at *
  by_cases h1 : x.1 = y.1
  · rw [if_pos h1] at hxy
    rw [if_pos h1.symm]
    exact strLt_asymm _ _ hxy
  · rw [if_neg h1] at hxy
    rw [if_neg (fun hh => h1 hh.symm)]
    exact strLt_asymm _ _ hxy

theorem pairLt_conn : ∀ x y : Str × Str,
    pairLt x y = false → pairLt y x = false → x = y := by
  intro x y hxy hyx
  unfold pairLt at *
  by_cases h1 : x.1 = y.1
  · rw [if_pos h1] at hxy
    rw [if_pos h1.symm] at hyx
    have h2 := strLt_conn _ _ hxy hyx
    exact Prod.ext h1 h2
  · rw [if_neg h1] at hxy
    rw [if_neg (fun hh => h1 hh.symm)] at hyx
    exact absurd (strLt_conn _ _ hxy hyx) h1

theorem per_ph_item_keys_nodup {phs : List PlaceholderSource} {ph : PlaceholderSource}
    (hkeys : (allPlaceholderKeys phs).Nodup) (hmem : ph ∈ phs) :
    (ph.Items.map (·.1)).Nodup := by
  unfold allPlaceholderKeys at hkeys
  rw [List.nodup_flatten] at hkeys
  have := hkeys.1 (ph.Kind :: ph.Items.map (·.1)) (List.mem_map_of_mem _ hmem)
  exact (List.nodup_cons.mp this).2

theorem itemKeyText_congr {a b : PlaceholderSource} (pl : Str)
    (hperm : List.Perm a.Items b.Items) (hnd : (a.Items.map (·.1)).Nodup)
    (it : PlaceholderItem) :
    itemKeyText a.Items pl it = itemKeyText b.Items pl it := by
  unfold itemKeyText
  rw [lookupAssoc_perm hperm hnd]

theorem buildPlaceholder_congr (pl : Str) {a b : PlaceholderSource}
    (hrel : a.Kind = b.Kind ∧ List.Perm a.Items b.Items)
    (hnd : (a.Items.map (·.1)).Nodup)
    (hval : placeholderIsValue a = true → a.Items.length ≤ 1) :
    buildPlaceholder pl a = buildPlaceholder pl b := by
  have hisv : placeholderIsValue a = placeholderIsValue b := by
    unfold placeholderIsValue
    exact perm_all_eq hrel.2 _
  have htyn : placeholderTypeName a = placeholderTypeName b :=
    placeholderTypeName_congr hrel
  have hmap : List.Perm (a.Items.map (fun it => PlaceholderItem.mk it.1 (toCamelCase it.1) it.2))
      (b.Items.map (fun it => PlaceholderItem.mk it.1 (toCamelCase it.1) it.2)) :=
    hrel.2.map _
  unfold buildPlaceholder
  dsimp only
  by_cases hv : placeholderIsValue a = true
  · rw [if_pos hv, if_pos (hisv ▸ hv)]
    have hlen : (a.Items.map
        (fun it => PlaceholderItem.mk it.1 (toCamelCase it.1) it.2)).length ≤ 1 := by
      rw [List.length_map]
      exact hval hv
    rw [htyn, hrel.1, hisv, perm_eq_of_length_le_one hmap hlen]
  · rw [if_neg hv, if_neg (hisv ▸ hv)]
    have hcmp : (fun x y : PlaceholderItem => !(itemLtB b.Items pl y x))
        = (fun x y : PlaceholderItem => !(itemLtB a.Items pl y x)) := by
      funext x y
      unfold itemLtB
      rw [itemKeyText_congr pl hrel.2 hnd x, itemKeyText_congr pl hrel.2 hnd y]
    rw [htyn, hrel.1, hisv, hcmp]
    have hids : ((a.Items.map
        (fun it => PlaceholderItem.mk it.1 (toCamelCase it.1) it.2)).map (·.ID))
        = a.Items.map (·.1) := by
      rw [List.map_map]
      rfl
    have hndA : (a.Items.map
        (fun it => PlaceholderItem.mk it.1 (toCamelCase it.1) it.2)).Nodup := by
      apply List.Nodup.of_map (·.ID)
      rw [hids]
      exact hnd
    have hinj : ∀ x ∈ a.Items.map (fun it => PlaceholderItem.mk it.1 (toCamelCase it.1) it.2),
        ∀ y ∈ a.Items.map (fun it => PlaceholderItem.mk it.1 (toCamelCase it.1) it.2),
        itemSortKey a.Items pl x = itemSortKey a.Items pl y → x = y := by
      intro x hx y hy hk
      have hid : x.ID = y.ID := congrArg Prod.snd hk
      have hndIDs : ((a.Items.map
          (fun it => PlaceholderItem.mk it.1 (toCamelCase it.1) it.2)).map (·.ID)).Nodup := by
        rw [hids]; exact hnd
      exact nodup_map_inj hndIDs x hx y hy hid
    congr 1
    exact sortByKey_unique (itemSortKey a.Items pl) pairLt pairLt_trans pairLt_asymm
      pairLt_conn _ _ hmap hndA hinj

theorem forall₂_imp_mem {R S : α → β → Prop} :
    ∀ {l1 : List α} {l2 : List β}, List.Forall₂ R l1 l2 →
      (∀ a ∈ l1, ∀ b ∈ l2, R a b → S a b) → List.Forall₂ S l1 l2 := by
  intro l1 l2 h
  induction h with
  | nil => intro _; exact List.Forall₂.nil
  | cons hr h2 ih =>
    intro himp
    refine List.Forall₂.cons
      (himp _ (List.mem_cons_self _ _) _ (List.mem_cons_self _ _) hr) ?_
    exact ih (fun a ha b hb hab =>
      himp a (List.mem_cons_of_mem _ ha) b (List.mem_cons_of_mem _ hb) hab)

theorem declared_perm {phs phs2 : List PlaceholderSource}
    (hrel : SameSourcePerm phs phs2)
    (hkeys : (allPlaceholderKeys phs).Nodup)
    (hval : ∀ ph ∈ phs, placeholderIsValue ph = true → ph.Items.length ≤ 1) (pl : Str) :
    List.Perm (phs.map (buildPlaceholder pl)) (phs2.map (buildPlaceholder pl)) := by
  obtain ⟨mid, hperm, hf2⟩ := hrel
  have h1 : List.Perm (phs.map (buildPlaceholder pl)) (mid.map (buildPlaceholder pl)) :=
    hperm.map _
  have h2 : mid.map (buildPlaceholder pl) = phs2.map (buildPlaceholder pl) := by
    apply forall₂_eq_map_eq
    apply forall₂_map_rel (buildPlaceholder pl) (buildPlaceholder pl) (fun a b h => h)
    apply forall₂_imp_mem hf2
    intro a ha b hb hab
    have hamem : a ∈ phs := hperm.mem_iff.mpr ha
    exact buildPlaceholder_congr pl hab (per_ph_item_keys_nodup hkeys hamem) (hval a hamem)
  rw [← h2]
  exact h1

theorem nameIn_iff_mem_map (st : List Placeholder) (n : Str) :
    nameIn st n ↔ n ∈ st.map (·.StructName) := by
  unfold nameIn
  constructor
  · rintro ⟨q, hq, hqn⟩
    exact hqn ▸ List.mem_map_of_mem _ hq
  · intro h
    rcases List.mem_map.mp h with ⟨q, hq, hqn⟩
    exact ⟨q, hq, hqn⟩

theorem nameIn_append_iff (st : List Placeholder) (p : Placeholder) (n : Str) :
    nameIn (st ++ [p]) n ↔ nameIn st n ∨ p.StructName = n := by
  unfold nameIn
  constructor
  · rintro ⟨q, hq, hqn⟩
    rcases List.mem_append.mp hq with h | h
    · exact Or.inl ⟨q, h, hqn⟩
    · exact Or.inr (List.mem_singleton.mp h ▸ hqn)
  · rintro (⟨q, hq, hqn⟩ | h)
    · exact ⟨q, List.mem_append_left _ hq, hqn⟩
    · exact ⟨p, List.mem_append_right _ (List.mem_singleton_self p), h⟩

theorem any_structName_iff (st : List Placeholder) (n : Str) :
    (st.any (fun p => p.StructName == n)) = true ↔ nameIn st n := by
  rw [List.any_eq_true]
  unfold nameIn
  constructor
  · rintro ⟨q, hq, hqn⟩
    exact ⟨q, hq, beq_iff_eq.mp hqn⟩
  · rintro ⟨q, hq, hqn⟩
    exact ⟨q, hq, beq_iff_eq.mpr hqn⟩

theorem synth_fold_spec (cfg : Config) (types : List (Str × Str)) :
    ∀ (cs : List FieldInfo) (st0 : List Placeholder),
      (∀ f1 ∈ cs, ∀ f2 ∈ cs, synthEligible cfg types f1 → synthEligible cfg types f2 →
        toCamelCase f1.Name = toCamelCase f2.Name → f1.Name = f2.Name) →
      (st0.map (·.StructName)).Nodup →
      ((cs.foldl (synthStep cfg types) st0).map (·.StructName)).Nodup ∧
      (∀ p : Placeholder, p ∈ cs.foldl (synthStep cfg types) st0 ↔
        p ∈ st0 ∨ ∃ fi ∈ cs, synthEligible cfg types fi ∧ p = synthPlaceholder fi.Name ∧
          ¬ nameIn st0 (toCamelCase fi.Name ++ "Value".data)) := by
  intro cs
  induction cs with
  | nil =>
    intro st0 _ hnd
    refine ⟨hnd, fun p => ?_⟩
    simp
  | cons fi rest ih =>
    intro st0 hinj hnd
    have hinjrest : ∀ f1 ∈ rest, ∀ f2 ∈ rest, synthEligible cfg types f1 →
        synthEligible cfg types f2 → toCamelCase f1.Name = toCamelCase f2.Name →
        f1.Name = f2.Name :=
      fun f1 h1 f2 h2 => hinj f1 (List.mem_cons_of_mem _ h1) f2 (List.mem_cons_of_mem _ h2)
    rw [List.foldl_cons]
    by_cases helig : synthEligible cfg types fi
    · obtain ⟨hskip, hnone⟩ := helig
      have hstep : synthStep cfg types st0 fi =
          if st0.any (fun p => p.StructName == toCamelCase fi.Name ++ "Value".data)
          then st0 else st0 ++ [synthPlaceholder fi.Name] := by
        unfold synthStep
        rw [if_neg hskip, hnone]
      by_cases hni : nameIn st0 (toCamelCase fi.Name ++ "Value".data)
      · rw [hstep, if_pos ((any_structName_iff st0 _).mpr hni)]
        obtain ⟨hnd2, hmem⟩ := ih st0 hinjrest hnd
        refine ⟨hnd2, fun p => ?_⟩
        rw [hmem p]
        constructor
        · rintro (h | ⟨fi2, hfi2, he, hp, hni2⟩)
          · exact Or.inl h
          · exact Or.inr ⟨fi2, List.mem_cons_of_mem _ hfi2, he, hp, hni2⟩
        · rintro (h | ⟨fi2, hfi2, he, hp, hni2⟩)
          · exact Or.inl h
          · rcases List.mem_cons.mp hfi2 with heq | h2
            · exact absurd (heq ▸ hni) hni2
            · exact Or.inr ⟨fi2, h2, he, hp, hni2⟩
      · rw [hstep, if_neg (fun hh => hni ((any_structName_iff st0 _).mp hh))]
        have hnd1 : ((st0 ++ [synthPlaceholder fi.Name]).map (·.StructName)).Nodup := by
          rw [List.map_append, List.nodup_append]
          refine ⟨hnd, by simp, ?_⟩
          intro x hx hy
          have hxn : x = toCamelCase fi.Name ++ "Value".data := by
            simpa [synthPlaceholder] using hy
          subst hxn
          exact hni ((nameIn_iff_mem_map st0 _).mpr hx)
        obtain ⟨hnd2, hmem⟩ := ih (st0 ++ [synthPlaceholder fi.Name]) hinjrest hnd1
        refine ⟨hnd2, fun p => ?_⟩
        rw [hmem p]
        constructor
        · rintro (h | ⟨fi2, hfi2, he, hp, hni2⟩)
          · rcases List.mem_append.mp h with h0 | h1
            · exact Or.inl h0
            · exact Or.inr ⟨fi, List.mem_cons_self _ _, ⟨hskip, hnone⟩,
                List.mem_singleton.mp h1, hni⟩
          · refine Or.inr ⟨fi2, List.mem_cons_of_mem _ hfi2, he, hp, fun hn0 => ?_⟩
            exact hni2 ((nameIn_append_iff st0 _ _).mpr (Or.inl hn0))
        · rintro (h | ⟨fi2, hfi2, he, hp, hni2⟩)
          · exact Or.inl (List.mem_append_left _ h)
          · rcases List.mem_cons.mp hfi2 with heq | h2
            · subst heq
              exact Or.inl (List.mem_append_right _ (hp ▸ List.mem_singleton_self _))
            · by_cases hn2 : toCamelCase fi2.Name ++ "Value".data
                  = toCamelCase fi.Name ++ "Value".data
              · have hcam : toCamelCase fi2.Name = toCamelCase fi.Name :=
                  List.append_cancel_right hn2
                have hnames : fi2.Name = fi.Name :=
                  hinj fi2 (List.mem_cons_of_mem _ h2) fi (List.mem_cons_self _ _)
                    he ⟨hskip, hnone⟩ hcam
                refine Or.inl (List.mem_append_right _ ?_)
                rw [hp, hnames]
                exact List.mem_singleton_self _
              · refine Or.inr ⟨fi2, h2, he, hp, fun hnn => ?_⟩
                rcases (nameIn_append_iff st0 _ _).mp hnn with h0 | h1
                · exact hni2 h0
                · exact hn2 (h1.symm)
    · have hstep : synthStep cfg types st0 fi = st0 := by
        unfold synthStep
        by_cases hskip : (cfg.backend == "go-i18n".data && cfg.isPluralPlaceholder fi.Name)
            = true
        · rw [if_pos hskip]
        · rw [if_neg hskip]
          cases hl : lookupAssoc types fi.Name with
          | some ty => rfl
          | none => exact absurd ⟨hskip, hl⟩ helig
      rw [hstep]
      obtain ⟨hnd2, hmem⟩ := ih st0 hinjrest hnd
      refine ⟨hnd2, fun p => ?_⟩
      rw [hmem p]
      constructor
      · rintro (h | ⟨fi2, hfi2, he, hp, hni2⟩)
        · exact Or.inl h
        · exact Or.inr ⟨fi2, List.mem_cons_of_mem _ hfi2, he, hp, hni2⟩
      · rintro (h | ⟨fi2, hfi2, he, hp, hni2⟩)
        · exact Or.inl h
        · rcases List.mem_cons.mp hfi2 with heq | h2
          · exact absurd (heq ▸ he) helig
          · exact Or.inr ⟨fi2, h2, he, hp, hni2⟩

theorem msgFieldOf_congr (cfg : Config) {t1 t2 : List (Str × Str)}
    (h : ∀ k, lookupAssoc t1 k = lookupAssoc t2 k) (fi : FieldInfo) :
    msgFieldOf cfg t1 fi = msgFieldOf cfg t2 fi := by
  unfold msgFieldOf
  rw [h fi.Name]

theorem buildMessage_congr (cfg : Config) {t1 t2 : List (Str × Str)}
    (h : ∀ k, lookupAssoc t1 k = lookupAssoc t2 k) (msg : MessageSource) :
    buildMessage cfg t1 msg = buildMessage cfg t2 msg := by
  unfold buildMessage msgFields
  rw [List.filterMap_congr (fun fi _ => msgFieldOf_congr cfg h fi)]

theorem synthStep_congr (cfg : Config) {t1 t2 : List (Str × Str)}
    (h : ∀ k, lookupAssoc t1 k = lookupAssoc t2 k) (st : List Placeholder)
    (fi : FieldInfo) : synthStep cfg t1 st fi = synthStep cfg t2 st fi := by
  unfold synthStep
  rw [h fi.Name]

theorem foldl_synthStep_congr (cfg : Config) {t1 t2 : List (Str × Str)}
    (h : ∀ k, lookupAssoc t1 k = lookupAssoc t2 k) :
    ∀ (cs : List FieldInfo) (st : List Placeholder),
      cs.foldl (synthStep cfg t1) st = cs.foldl (synthStep cfg t2) st := by
  intro cs
  induction cs with
  | nil => intro st; rfl
  | cons fi rest ih =>
    intro st
    rw [List.foldl_cons, List.foldl_cons, synthStep_congr cfg h, ih]

theorem synthEligible_congr (cfg : Config) {t1 t2 : List (Str × Str)}
    (h : ∀ k, lookupAssoc t1 k = lookupAssoc t2 k) (fi : FieldInfo) :
    synthEligible cfg t1 fi ↔ synthEligible cfg t2 fi := by
  unfold synthEligible
  rw [h fi.Name]

theorem mem_cands {msgs : List MessageSource} {f : FieldInfo} :
    f ∈ (msgs.map (·.FieldInfos)).flatten ↔ ∃ m ∈ msgs, f ∈ m.FieldInfos := by
  rw [List.mem_flatten]
  constructor
  · rintro ⟨l, hl, hf⟩
    rcases List.mem_map.mp hl with ⟨m, hm, hml⟩
    exact ⟨m, hm, hml ▸ hf⟩
  · rintro ⟨m, hm, hf⟩
    exact ⟨m.FieldInfos, List.mem_map_of_mem _ hm, hf⟩

/-- C1 counterexample: a single declared kind with two items and no locale
text is classified Value, and `Build` does not sort the items of a Value
placeholder — their order follows the iteration order of the backing item
map.  Two runs over the same input whose item maps iterate in different
orders produce differently ordered Items lists, hence unequal Definitions. -/
theorem c1_counterexample :
    List.Perm
        [(("a".data : Str), ([] : List (Str × Str))), ("b".data, [])]
        [("b".data, []), ("a".data, [])] ∧
      ((build [] [⟨"k".data, [("a".data, []), ("b".data, [])]⟩] ["en".data]
          ⟨[], []⟩).Placeholders.map (fun p => p.Items.map (·.ID)))
        ≠ ((build [] [⟨"k".data, [("b".data, []), ("a".data, [])]⟩] ["en".data]
          ⟨[], []⟩).Placeholders.map (fun p => p.Items.map (·.ID))) ∧
      build [] [⟨"k".data, [("a".data, []), ("b".data, [])]⟩] ["en".data] ⟨[], []⟩
        ≠ build [] [⟨"k".data, [("b".data, []), ("a".data, [])]⟩] ["en".data] ⟨[], []⟩ := by
  refine ⟨by decide, by decide, ?_⟩
  intro h
  exact absurd (congrArg (fun d => d.Placeholders.map (fun p => p.Items.map (·.ID))) h)
    (by decide)

/-- C1 amended: under the well-formedness assumptions of the spec — globally
distinct catalog keys, distinct generated type names for the declared kinds,
distinct message IDs, camel-case-injective unmatched base names — and the
restriction that every Value-classified declared kind has at most one item,
two `Build` runs over the same input (message list permuted, placeholder
list permuted, each kind's item map iterated in any order) return equal
`Definitions`: messages sorted by ID, placeholders sorted by struct name,
Text items sorted by primary-locale text.  Without the Value-item
restriction the claim fails, as the counterexample shows: a Value kind's
Items list keeps its input iteration order. -/
theorem c1_build_determinism
    (msgs msgs2 : List MessageSource) (phs phs2 : List PlaceholderSource)
    (locales : List Str) (cfg : Config)
    (hmsgperm : List.Perm msgs msgs2)
    (hrel : SameSourcePerm phs phs2)
    (hkeys : (allPlaceholderKeys phs).Nodup)
    (htypes : (phs.map placeholderTypeName).Nodup)
    (hvalue : ∀ ph ∈ phs, placeholderIsValue ph = true → ph.Items.length ≤ 1)
    (hids : (msgs.map (·.ID)).Nodup)
    (hcaminj : ∀ m1 ∈ msgs, ∀ m2 ∈ msgs, ∀ f1 ∈ m1.FieldInfos, ∀ f2 ∈ m2.FieldInfos,
      lookupAssoc (placeholderTypes phs) f1.Name = none →
      lookupAssoc (placeholderTypes phs) f2.Name = none →
      toCamelCase f1.Name = toCamelCase f2.Name → f1.Name = f2.Name) :
    build msgs phs locales cfg = build msgs2 phs2 locales cfg := by
  rw [build_eq, build_eq]
  have hlook : ∀ k, lookupAssoc (placeholderTypes phs) k
      = lookupAssoc (placeholderTypes phs2) k :=
    placeholderTypes_lookup_congr hrel hkeys
  have hMsg : insertionSortB (fun a b => !(strLt b.ID a.ID))
        (msgs.map (buildMessage cfg (placeholderTypes phs)))
      = insertionSortB (fun a b => !(strLt b.ID a.ID))
        (msgs2.map (buildMessage cfg (placeholderTypes phs2))) := by
    have hmapeq : msgs2.map (buildMessage cfg (placeholderTypes phs2))
        = msgs2.map (buildMessage cfg (placeholderTypes phs)) :=
      List.map_congr_left (fun m _ => (buildMessage_congr cfg hlook m).symm)
    rw [hmapeq]
    have hperm2 : List.Perm (msgs.map (buildMessage cfg (placeholderTypes phs)))
        (msgs2.map (buildMessage cfg (placeholderTypes phs))) := hmsgperm.map _
    have hidsM : ((msgs.map (buildMessage cfg (placeholderTypes phs))).map (·.ID)).Nodup := by
      rw [List.map_map]
      exact hids
    exact sortByKey_unique (fun m : Message => m.ID) strLt strLt_trans strLt_asymm
      strLt_conn _ _ hperm2 (List.Nodup.of_map _ hidsM)
      (fun a ha b hb => nodup_map_inj hidsM a ha b hb)
  have hPh : insertionSortB (fun a b => !(strLt b.StructName a.StructName))
        (((msgs.map (·.FieldInfos)).flatten).foldl
          (synthStep cfg (placeholderTypes phs))
          (phs.map (buildPlaceholder ((locales.head?).getD "en".data))))
      = insertionSortB (fun a b => !(strLt b.StructName a.StructName))
        (((msgs2.map (·.FieldInfos)).flatten).foldl
          (synthStep cfg (placeholderTypes phs2))
          (phs2.map (buildPlaceholder ((locales.head?).getD "en".data)))) := by
    rw [← foldl_synthStep_congr cfg hlook]
    have hdecl : List.Perm
        (phs.map (buildPlaceholder ((locales.head?).getD "en".data)))
        (phs2.map (buildPlaceholder ((locales.head?).getD "en".data))) :=
      declared_perm hrel hkeys hvalue _
    have hcands : List.Perm ((msgs.map (·.FieldInfos)).flatten)
        ((msgs2.map (·.FieldInfos)).flatten) :=
      (hmsgperm.map _).flatten
    have hd1names : ((phs.map (buildPlaceholder
        ((locales.head?).getD "en".data))).map (·.StructName)).Nodup := by
      rw [List.map_map]
      exact htypes
    have hd2names : ((phs2.map (buildPlaceholder
        ((locales.head?).getD "en".data))).map (·.StructName)).Nodup :=
      ((hdecl.map (·.StructName)).nodup_iff).mp hd1names
    have hinj1 : ∀ f1 ∈ (msgs.map (·.FieldInfos)).flatten,
        ∀ f2 ∈ (msgs.map (·.FieldInfos)).flatten,
        synthEligible cfg (placeholderTypes phs) f1 →
        synthEligible cfg (placeholderTypes phs) f2 →
        toCamelCase f1.Name = toCamelCase f2.Name → f1.Name = f2.Name := by
      intro f1 h1 f2 h2 he1 he2 hc
      rcases mem_cands.mp h1 with ⟨m1, hm1, hf1⟩
      rcases mem_cands.mp h2 with ⟨m2, hm2, hf2⟩
      exact hcaminj m1 hm1 m2 hm2 f1 hf1 f2 hf2 he1.2 he2.2 hc
    have hinj2 : ∀ f1 ∈ (msgs2.map (·.FieldInfos)).flatten,
        ∀ f2 ∈ (msgs2.map (·.FieldInfos)).flatten,
        synthEligible cfg (placeholderTypes phs) f1 →
        synthEligible cfg (placeholderTypes phs) f2 →
        toCamelCase f1.Name = toCamelCase f2.Name → f1.Name = f2.Name := by
      intro f1 h1 f2 h2
      exact hinj1 f1 (hcands.mem_iff.mpr h1) f2 (hcands.mem_iff.mpr h2)
    obtain ⟨hnd1, hmem1⟩ := synth_fold_spec cfg (placeholderTypes phs)
      ((msgs.map (·.FieldInfos)).flatten)
      (phs.map (buildPlaceholder ((locales.head?).getD "en".data))) hinj1 hd1names
    obtain ⟨hnd2, hmem2⟩ := synth_fold_spec cfg (placeholderTypes phs)
      ((msgs2.map (·.FieldInfos)).flatten)
      (phs2.map (buildPlaceholder ((locales.head?).getD "en".data))) hinj2 hd2names
    have hmemiff : ∀ p : Placeholder,
        p ∈ ((msgs.map (·.FieldInfos)).flatten).foldl
          (synthStep cfg (placeholderTypes phs))
          (phs.map (buildPlaceholder ((locales.head?).getD "en".data))) ↔
        p ∈ ((msgs2.map (·.FieldInfos)).flatten).foldl
          (synthStep cfg (placeholderTypes phs))
          (phs2.map (buildPlaceholder ((locales.head?).getD "en".data))) := by
      intro p
      rw [hmem1 p, hmem2 p]
      have hnameiff : ∀ n : Str,
          nameIn (phs.map (buildPlaceholder ((locales.head?).getD "en".data))) n ↔
          nameIn (phs2.map (buildPlaceholder ((locales.head?).getD "en".data))) n := by
        intro n
        rw [nameIn_iff_mem_map, nameIn_iff_mem_map]
        exact (hdecl.map (·.StructName)).mem_iff
      constructor
      · rintro (h | ⟨fi, hfi, he, hp, hni⟩)
        · exact Or.inl (hdecl.mem_iff.mp h)
        · exact Or.inr ⟨fi, hcands.mem_iff.mp hfi, he, hp,
            fun hn => hni ((hnameiff _).mpr hn)⟩
      · rintro (h | ⟨fi, hfi, he, hp, hni⟩)
        · exact Or.inl (hdecl.mem_iff.mpr h)
        · exact Or.inr ⟨fi, hcands.mem_iff.mpr hfi, he, hp,
            fun hn => hni ((hnameiff _).mp hn)⟩
    have hpermF : List.Perm
        (((msgs.map (·.FieldInfos)).flatten).foldl
          (synthStep cfg (placeholderTypes phs))
          (phs.map (buildPlaceholder ((locales.head?).getD "en".data))))
        (((msgs2.map (·.FieldInfos)).flatten).foldl
          (synthStep cfg (placeholderTypes phs))
          (phs2.map (buildPlaceholder ((locales.head?).getD "en".data)))) :=
      (List.perm_ext_iff_of_nodup (List.Nodup.of_map _ hnd1)
        (List.Nodup.of_map _ hnd2)).mpr hmemiff
    exact sortByKey_unique (fun p : Placeholder => p.StructName) strLt strLt_trans
      strLt_asymm strLt_conn _ _ hpermF (List.Nodup.of_map _ hnd1)
      (fun a ha b hb => nodup_map_inj hnd1 a ha b hb)
  rw [hMsg, hPh]

/-- Witness for C1: the determinism theorem applied at a concrete two-run
pair — one Text kind with two items (maps permuted) and one message — both
runs giving equal definitions. -/
theorem c1_build_determinism_witness :
    build
        [⟨"m".data, [("en".data, "\x7b\x7b.entity\x7d\x7d".data)], [],
          [⟨"entity".data, []⟩]⟩]
        [⟨"entity".data, [("user".data, [("en".data, "User".data)]),
          ("item".data, [("en".data, "Item".data)])]⟩] ["en".data] ⟨[], []⟩
      = build
        [⟨"m".data, [("en".data, "\x7b\x7b.entity\x7d\x7d".data)], [],
          [⟨"entity".data, []⟩]⟩]
        [⟨"entity".data, [("item".data, [("en".data, "Item".data)]),
          ("user".data, [("en".data, "User".data)])]⟩] ["en".data] ⟨[], []⟩ := by
  apply c1_build_determinism
  · exact List.Perm.refl _
  · refine ⟨[⟨"entity".data, [("user".data, [("en".data, "User".data)]),
      ("item".data, [("en".data, "Item".data)])]⟩], List.Perm.refl _, ?_⟩
    exact List.Forall₂.cons ⟨rfl, List.Perm.swap _ _ _⟩ List.Forall₂.nil
  · decide
  · decide
  · intro ph hm hv
    rcases List.mem_singleton.mp hm with rfl
    exact absurd hv (by decide)
  · decide
  · intro m1 hm1 m2 hm2 f1 hf1 f2 hf2 hl1 hl2 hc
    rcases List.mem_singleton.mp hm1 with rfl
    rcases List.mem_singleton.mp hf1 with rfl
    exact absurd hl1 (by decide)

/-- C9: for every declared placeholder kind passed to `Build`, the produced
definition appears in the output, is classified Value exactly when every one
of its items has an empty locale map (vacuously so for zero items), carries
a struct name ending in `Value` in exactly that case and ending in `Text`
otherwise, and the classification is a function of the item data alone —
there is no author-declared input that could influence it. -/
theorem c9_value_text_classification (msgs : List MessageSource)
    (phs : List PlaceholderSource) (locales : List Str) (cfg : Config)
    (ph : PlaceholderSource) (hmem : ph ∈ phs) :
    ∃ d ∈ (build msgs phs locales cfg).Placeholders,
      d = buildPlaceholder ((locales.head?).getD "en".data) ph ∧
      (d.IsValue = true ↔ ∀ it ∈ ph.Items, it.2 = []) ∧
      (d.IsValue = true → d.StructName = toCamelCase ph.Kind ++ "Value".data) ∧
      (d.IsValue = false → d.StructName = toCamelCase ph.Kind ++ "Text".data) ∧
      (d.IsValue = true ↔ ("Value".data).isSuffixOf d.StructName = true) := by
  refine ⟨buildPlaceholder ((locales.head?).getD "en".data) ph,
    mem_build_placeholders msgs phs locales cfg ph hmem, rfl, ?_, ?_, ?_, ?_⟩
  · show placeholderIsValue ph = true ↔ _
    unfold placeholderIsValue
    rw [List.all_eq_true]
    constructor
    · intro h it hit
      have := h it hit
      simpa [List.isEmpty_iff] using this
    · intro h it hit
      simp [List.isEmpty_iff, h it hit]
  · intro hv
    have hv2 : placeholderIsValue ph = true := hv
    show placeholderTypeName ph = _
    unfold placeholderTypeName
    rw [if_pos hv2]
  · intro hv
    have hv2 : placeholderIsValue ph = false := hv
    show placeholderTypeName ph = _
    unfold placeholderTypeName
    rw [if_neg (by simp [hv2])]
  · show placeholderIsValue ph = true ↔
      ("Value".data).isSuffixOf (placeholderTypeName ph) = true
    unfold placeholderTypeName
    by_cases hv : placeholderIsValue ph = true
    · rw [if_pos hv]
      simp only [hv, true_iff]
      rw [List.isSuffixOf_iff_suffix]
      exact List.suffix_append _ _
    · rw [if_neg hv]
      simp only [hv, Bool.false_eq_true, false_iff]
      intro hsuf
      rw [List.isSuffixOf_iff_suffix] at hsuf
      obtain ⟨u, hu⟩ := hsuf
      have h1 : (toCamelCase ph.Kind ++ "Text".data).getLast? = some 't' := by
        rw [List.getLast?_append_of_ne_nil (toCamelCase ph.Kind) (by decide)]
        decide
      have h2 : (toCamelCase ph.Kind ++ "Text".data).getLast? = some 'e' := by
        rw [← hu, List.getLast?_append_of_ne_nil u (by decide)]
        decide
      rw [h1] at h2
      injection h2 with h3
      exact absurd h3 (by decide)

/-- Witness for C9: applied to a concrete run with one declared kind whose
single item has no locale text — the definition is classified Value. -/
theorem c9_value_text_classification_witness :
    ∃ d ∈ (build [] [⟨"k".data, [("a".data, [])]⟩] ["en".data]
        ⟨[], []⟩).Placeholders, d.IsValue = true := by
  obtain ⟨d, hd, -, hiff, -, -, -⟩ :=
    c9_value_text_classification [] [⟨"k".data, [("a".data, [])]⟩] ["en".data]
      ⟨[], []⟩ ⟨"k".data, [("a".data, [])]⟩ (List.mem_singleton_self _)
  exact ⟨d, hd, hiff.mpr (by decide)⟩

end I18ngen
